import Mathlib

/-!
# XD64 keyboard interface of the hoboNicola library: scan engine, key mapper, layer switch

A shallow embedding of `examples/xd64/xd64.cpp`.

* `uint8_t` values are natural numbers; `% 256` is written where the C arithmetic
  could wrap (`code + k`, `code += delta`, `mask <<= 1`).
* The arrays `key_state`, `last_key_state` and `tmp_state` are lists of `STATE_COUNT`
  bytes; reading element `i` is `List.getD i 0`, writing it is `List.set`.
* `matrix_scan` takes the raw snapshot that the five `READ_ROW` calls leave in
  `tmp_state` as an argument, and returns the bytes it hands to `xd_put_buffer`,
  in call order, next to the new engine state.
* `xd64_get_key` takes the byte returned by `xd_get_buffer` as an argument. Reading
  `scan_to_hid_table` outside a 70-entry row has no defined result in C; the model
  returns `none` there.
* The usage codes of `hid_keycode.h` are not part of this source file; they are the
  fields of the parameter `HidCodes`.
* The event buffer (`xd_put_buffer`, `xd_get_buffer`) is a collaborator outside this
  file; a first-in first-out model of it is used only to state the end-to-end press.
-/

namespace XD64

/-! ## Switch matrix constants (lines 33-37) -/

def ROW_COUNT : Nat := 5

def COL_COUNT : Nat := 14

/-- 16 bits per row: two state bytes for each row. -/
def STATE_COUNT : Nat := (ROW_COUNT * 2) % 256

def SW_COUNT : Nat := (ROW_COUNT * COL_COUNT) % 256

/-! ## Scan engine state (lines 39-40) -/

/-- The two static snapshots of the scan engine: `key_state` is the most recent raw
reading (CandidateSnapshot), `last_key_state` the last accepted one (ConfirmedSnapshot). -/
structure Engine where
  key_state : List Nat
  last_key_state : List Nat
  deriving DecidableEq

/-- A snapshot is an array of `STATE_COUNT` bytes. -/
def IsSnapshot (s : List Nat) : Prop :=
  s.length = STATE_COUNT ∧ ∀ b ∈ s, b < 256

instance (s : List Nat) : Decidable (IsSnapshot s) := by
  unfold IsSnapshot; infer_instance

/-- The zero-initialised static arrays. -/
def zeroSnapshot : List Nat := List.replicate STATE_COUNT 0

/-- The engine as the C runtime initialises it (static storage is all zero). -/
def initEngine : Engine := ⟨zeroSnapshot, zeroSnapshot⟩

/-! ## libc helpers used by `matrix_scan` -/

/-- The call `memcmp(a, b, n)`: zero when the first `n` bytes agree, otherwise the
difference of the first pair of bytes that differ. -/
def memcmp : List Nat → List Nat → Nat → Int
  | _, _, 0 => 0
  | a, b, n + 1 =>
    if a.headD 0 ≠ b.headD 0 then (a.headD 0 : Int) - (b.headD 0 : Int)
    else memcmp a.tail b.tail n

/-- The call `memcpy(dst, src, n)`: the first `n` bytes of `dst` are replaced by those of `src`. -/
def memcpy (dst src : List Nat) (n : Nat) : List Nat :=
  src.take n ++ dst.drop n

/-! ## `matrix_scan` (lines 63-97) -/

/-- Lines 88-89: the event byte for scan code `code + k`; bit 7 is set for a release. -/
def eventByte (code k pressed mask : Nat) : Nat :=
  let c := (code + k) % 256
  c ||| (if pressed &&& mask ≠ 0 then 0 else 0x80)

/-- One iteration of the inner loop (lines 86-92). The loop state is `(mask, pushed)`:
the running bit mask and the bytes handed to `xd_put_buffer` so far. -/
def scanBit (code pressed change : Nat) (st : Nat × List Nat) (k : Nat) : Nat × List Nat :=
  let mask := st.1
  let pushed :=
    if change &&& mask ≠ 0 then st.2 ++ [eventByte code k pressed mask] else st.2
  ((mask <<< 1) % 256, pushed)

/-- State of the outer loop: the running scan code, `last_key_state`, and the bytes
handed to `xd_put_buffer` so far. -/
structure ScanLoop where
  code : Nat
  last : List Nat
  pushed : List Nat
  deriving DecidableEq

/-- Line 82: a row is stored in two bytes, 8 column bits in the even one and 6 in the odd one. -/
def deltaOf (i : Nat) : Nat := if i &&& 1 ≠ 0 then 6 else 8

/-- One iteration of the outer loop (lines 80-96) for state byte `i`. -/
def scanByte (tmp_state : List Nat) (st : ScanLoop) (i : Nat) : ScanLoop :=
  let pressed := tmp_state.getD i 0
  let delta := deltaOf i
  let change := pressed ^^^ st.last.getD i 0
  let st1 : ScanLoop :=
    if change ≠ 0 then
      { code := st.code
        last := st.last.set i pressed
        pushed := ((List.range delta).foldl (scanBit st.code pressed change) (1, st.pushed)).2 }
    else st
  { st1 with code := (st1.code + delta) % 256 }

/-- One tick of the scan engine. `tmp_state` is the raw snapshot read from the matrix.
Returns the new engine state and the bytes pushed to the event buffer, in order. -/
def matrix_scan (e : Engine) (tmp_state : List Nat) : Engine × List Nat :=
  let n := memcmp tmp_state e.key_state STATE_COUNT
  if n ≠ 0 then
    ({ e with key_state := memcpy e.key_state tmp_state STATE_COUNT }, [])
  else
    let r := (List.range STATE_COUNT).foldl (scanByte tmp_state) ⟨1, e.last_key_state, []⟩
    ({ e with last_key_state := r.last }, r.pushed)

/-! ## Event decoding (lines 148-149 of `xd64_get_key`) -/

/-- Line 149, `k &= 0x7f`: the scan code carried by an event byte. -/
def scanCodeOf (k : Nat) : Nat := k &&& 0x7f

/-- Line 148, `pressed = ((k & 0x80) == 0)`. -/
def pressedOf (k : Nat) : Bool := (k &&& 0x80) == 0

/-! ## Switch positions

`read_cols` (lines 43-50) stores each row in two consecutive state bytes: 8 column bits in
the first and 6 (masked with 0x3f) in the second, so a row holds `COL_COUNT` switches.
Switch `s` is the `s`-th of these positions in row-major order; `position_code` and
`code_position` below show that this is the numbering `matrix_scan` gives its events. -/

/-- State byte that holds switch `s` (1-based, row-major, `COL_COUNT` switches per row,
columns 0-7 in the even byte of the row and columns 8-13 in the odd one). -/
def switchByte (s : Nat) : Nat :=
  2 * ((s - 1) / COL_COUNT) + (if (s - 1) % COL_COUNT < 8 then 0 else 1)

/-- Bit of `switchByte s` that holds switch `s`. -/
def switchBitIdx (s : Nat) : Nat :=
  if (s - 1) % COL_COUNT < 8 then (s - 1) % COL_COUNT else (s - 1) % COL_COUNT - 8

/-- The bit of switch `s` in a snapshot. -/
def switchOn (snap : List Nat) (s : Nat) : Bool :=
  (snap.getD (switchByte s) 0).testBit (switchBitIdx s)

/-! ## Closed forms of the two scan loops (used by the proofs) -/

/-- Value of `code` when the outer loop reaches state byte `n`. -/
def codeAt : Nat → Nat
  | 0 => 1
  | n + 1 => (codeAt n + deltaOf n) % 256

/-- Bytes pushed by the inner loop for one state byte, bits `0 .. n-1`. -/
def bitEvents (code pressed change n : Nat) : List Nat :=
  (List.range n).filterMap fun k =>
    if change.testBit k then some (eventByte code k pressed (2 ^ k)) else none

/-- Bytes pushed by the outer loop for state bytes `0 .. n-1`. -/
def eventsUpTo (tmp last : List Nat) : Nat → List Nat
  | 0 => []
  | n + 1 => eventsUpTo tmp last n ++
      bitEvents (codeAt n) (tmp.getD n 0) (tmp.getD n 0 ^^^ last.getD n 0) (deltaOf n)

/-- The timer interrupt (lines 100-103) calls `matrix_scan` once per tick: feed the raw
snapshots of consecutive ticks, collecting the bytes pushed in each tick. -/
def ticks (e : Engine) : List (List Nat) → Engine × List (List Nat)
  | [] => (e, [])
  | raw :: rest =>
    let r := matrix_scan e raw
    let rr := ticks r.1 rest
    (rr.1, r.2 :: rr.2)

/-! ## Usage codes (`hid_keycode.h`, not part of this source file) -/

/-- The usage-code constants of `hid_keycode.h` that `xd64.cpp` names. The header is not
part of the source at hand, so their values are parameters of the model. -/
structure HidCodes where
  (HID_UNDEF : Nat)
  (HID_A HID_B HID_C HID_D HID_E HID_F HID_G HID_H HID_I HID_J HID_K HID_L HID_M : Nat)
  (HID_N HID_O HID_P HID_Q HID_R HID_S HID_T HID_U HID_V HID_W HID_X HID_Y HID_Z : Nat)
  (HID_1 HID_2 HID_3 HID_4 HID_5 HID_6 HID_7 HID_8 HID_9 HID_0 : Nat)
  (HID_ENTER HID_ESCAPE HID_BACKSP HID_TAB HID_SPACE HID_MINUS HID_EQL : Nat)
  (HID_LBRACK HID_RBRACK HID_BSLASH HID_SEMICOL HID_QUOTE HID_GRAVE_AC : Nat)
  (HID_COMMA HID_PERIOD HID_SLASH HID_CAPS : Nat)
  (HID_F1 HID_F2 HID_F3 HID_F4 HID_F5 HID_F6 HID_F7 HID_F8 HID_F9 HID_F10 HID_F11 HID_F12 : Nat)
  (HID_F13 HID_F14 HID_F15 HID_F16 HID_F17 HID_F18 HID_F19 HID_F20 HID_F21 : Nat)
  (HID_PRNTSCRN HID_SCRLOCK HID_PAUSE HID_INSERT HID_HOME HID_PGUP HID_DELETE HID_END : Nat)
  (HID_PGDOWN HID_R_ARROW HID_L_ARROW HID_D_ARROW HID_U_ARROW HID_APP : Nat)
  (HID_L_CTRL HID_L_SHIFT HID_L_ALT HID_L_GUI HID_R_CTRL HID_R_SHIFT : Nat)
  (HID_J_BSLASH HID_J_AT HID_J_LBRACK HID_J_RBR_32 HID_J_UL : Nat)
  (HID_HIRAGANA HID_HENKAN HID_MUHENKAN HID_IME_ON HID_IME_OFF : Nat)
  (HID_X_FN1 FN_MEDIA_MUTE FN_MEDIA_V_DN FN_MEDIA_V_UP : Nat)

/-- A sample assignment of the usage codes, used to instantiate theorems on concrete
input: the keyboard-page usage ids of the USB HID usage tables (for the `HID_J` keys the
ids a JIS keyboard sends), and arbitrary distinct values for `HID_X_FN1` and the three
`FN_MEDIA` codes. No theorem
about the program depends on these values. -/
def sampleCodes : HidCodes where
  HID_UNDEF := 0
  HID_A := 0x04
  HID_B := 0x05
  HID_C := 0x06
  HID_D := 0x07
  HID_E := 0x08
  HID_F := 0x09
  HID_G := 0x0a
  HID_H := 0x0b
  HID_I := 0x0c
  HID_J := 0x0d
  HID_K := 0x0e
  HID_L := 0x0f
  HID_M := 0x10
  HID_N := 0x11
  HID_O := 0x12
  HID_P := 0x13
  HID_Q := 0x14
  HID_R := 0x15
  HID_S := 0x16
  HID_T := 0x17
  HID_U := 0x18
  HID_V := 0x19
  HID_W := 0x1a
  HID_X := 0x1b
  HID_Y := 0x1c
  HID_Z := 0x1d
  HID_1 := 0x1e
  HID_2 := 0x1f
  HID_3 := 0x20
  HID_4 := 0x21
  HID_5 := 0x22
  HID_6 := 0x23
  HID_7 := 0x24
  HID_8 := 0x25
  HID_9 := 0x26
  HID_0 := 0x27
  HID_ENTER := 0x28
  HID_ESCAPE := 0x29
  HID_BACKSP := 0x2a
  HID_TAB := 0x2b
  HID_SPACE := 0x2c
  HID_MINUS := 0x2d
  HID_EQL := 0x2e
  HID_LBRACK := 0x2f
  HID_RBRACK := 0x30
  HID_BSLASH := 0x31
  HID_SEMICOL := 0x33
  HID_QUOTE := 0x34
  HID_GRAVE_AC := 0x35
  HID_COMMA := 0x36
  HID_PERIOD := 0x37
  HID_SLASH := 0x38
  HID_CAPS := 0x39
  HID_F1 := 0x3a
  HID_F2 := 0x3b
  HID_F3 := 0x3c
  HID_F4 := 0x3d
  HID_F5 := 0x3e
  HID_F6 := 0x3f
  HID_F7 := 0x40
  HID_F8 := 0x41
  HID_F9 := 0x42
  HID_F10 := 0x43
  HID_F11 := 0x44
  HID_F12 := 0x45
  HID_F13 := 0x68
  HID_F14 := 0x69
  HID_F15 := 0x6a
  HID_F16 := 0x6b
  HID_F17 := 0x6c
  HID_F18 := 0x6d
  HID_F19 := 0x6e
  HID_F20 := 0x6f
  HID_F21 := 0x70
  HID_PRNTSCRN := 0x46
  HID_SCRLOCK := 0x47
  HID_PAUSE := 0x48
  HID_INSERT := 0x49
  HID_HOME := 0x4a
  HID_PGUP := 0x4b
  HID_DELETE := 0x4c
  HID_END := 0x4d
  HID_PGDOWN := 0x4e
  HID_R_ARROW := 0x4f
  HID_L_ARROW := 0x50
  HID_D_ARROW := 0x51
  HID_U_ARROW := 0x52
  HID_APP := 0x65
  HID_L_CTRL := 0xe0
  HID_L_SHIFT := 0xe1
  HID_L_ALT := 0xe2
  HID_L_GUI := 0xe3
  HID_R_CTRL := 0xe4
  HID_R_SHIFT := 0xe5
  HID_J_BSLASH := 0x89
  HID_J_AT := 0x2f
  HID_J_LBRACK := 0x30
  HID_J_RBR_32 := 0x32
  HID_J_UL := 0x87
  HID_HIRAGANA := 0x88
  HID_HENKAN := 0x8a
  HID_MUHENKAN := 0x8b
  HID_IME_ON := 0x90
  HID_IME_OFF := 0x91
  HID_X_FN1 := 0xf0
  FN_MEDIA_MUTE := 0xf1
  FN_MEDIA_V_DN := 0xf2
  FN_MEDIA_V_UP := 0xf3

/-! ## Scan code to usage id tables (lines 107-129) -/

def HID_TABLE_BASE : Nat := 0

def HID_TABLE_FN1 : Nat := 1

/-- The two 70-entry tables, `usageid = scan_to_hid_table[layer][scancode - 1]`. -/
def scan_to_hid_table (h : HidCodes) : List (List Nat) :=
  [ [ h.HID_ESCAPE, h.HID_1, h.HID_2, h.HID_3, h.HID_4, h.HID_5, h.HID_6, h.HID_7, h.HID_8, h.HID_9,
      h.HID_0, h.HID_MINUS, h.HID_EQL, h.HID_J_BSLASH, h.HID_TAB, h.HID_Q, h.HID_W, h.HID_E, h.HID_R, h.HID_T,
      h.HID_Y, h.HID_U, h.HID_I, h.HID_O, h.HID_P, h.HID_J_AT, h.HID_J_LBRACK, h.HID_UNDEF, h.HID_CAPS, h.HID_A,
      h.HID_S, h.HID_D, h.HID_F, h.HID_G, h.HID_H, h.HID_J, h.HID_K, h.HID_L, h.HID_SEMICOL, h.HID_QUOTE,
      h.HID_J_RBR_32, h.HID_ENTER, h.HID_L_SHIFT, h.HID_UNDEF, h.HID_Z, h.HID_X, h.HID_C, h.HID_V, h.HID_B, h.HID_N,
      h.HID_M, h.HID_COMMA, h.HID_PERIOD, h.HID_SLASH, h.HID_DELETE, h.HID_U_ARROW, h.HID_L_CTRL, h.HID_L_GUI, h.HID_L_ALT, h.HID_UNDEF,
      h.HID_HIRAGANA, h.HID_SPACE, h.HID_MUHENKAN, h.HID_J_UL, h.HID_L_ARROW, h.HID_BACKSP, h.HID_R_CTRL, h.HID_X_FN1, h.HID_D_ARROW, h.HID_R_ARROW ],
    [ h.HID_GRAVE_AC, h.HID_F1, h.HID_F2, h.HID_F3, h.HID_F4, h.HID_F5, h.HID_F6, h.HID_F7, h.HID_F8, h.HID_F9,
      h.HID_F10, h.HID_F11, h.HID_F12, h.HID_INSERT, h.HID_TAB, h.HID_F13, h.HID_F14, h.HID_F15, h.HID_F16, h.HID_F17,
      h.HID_F18, h.HID_F19, h.HID_F20, h.HID_F21, h.HID_PRNTSCRN, h.HID_SCRLOCK, h.HID_PAUSE, h.HID_UNDEF, h.HID_CAPS, h.HID_A,
      h.HID_S, h.HID_D, h.HID_F, h.HID_G, h.HID_H, h.HID_J, h.HID_K, h.HID_L, h.HID_SEMICOL, h.HID_QUOTE,
      h.HID_J_RBR_32, h.HID_ENTER, h.HID_L_SHIFT, h.HID_UNDEF, h.HID_Z, h.HID_X, h.HID_C, h.HID_V, h.HID_B, h.HID_N,
      h.FN_MEDIA_MUTE, h.FN_MEDIA_V_DN, h.FN_MEDIA_V_UP, h.HID_SLASH, h.HID_DELETE, h.HID_PGUP, h.HID_L_CTRL, h.HID_L_GUI, h.HID_L_ALT, h.HID_UNDEF,
      h.HID_APP, h.HID_HENKAN, h.HID_SPACE, h.HID_J_UL, h.HID_HOME, h.HID_BACKSP, h.HID_R_CTRL, h.HID_X_FN1, h.HID_PGDOWN, h.HID_END ] ]

/-- The read `scan_to_hid_table[t][i]`. The index `i` is the C `int` value of `k - 1`;
the result is `none` when the read falls outside the `SW_COUNT` entries of a table. -/
def tableRead (h : HidCodes) (t : Nat) (i : Int) : Option Nat :=
  match (scan_to_hid_table h)[t]? with
  | none => none
  | some row => if 0 ≤ i ∧ i < (SW_COUNT : Int) then row[i.toNat]? else none

/-! ## Layer switch (lines 131-137) -/

/-- Initial value of the static `hid_table_index`. -/
def hid_table_index_init : Nat := HID_TABLE_BASE

/-- The value of the static `hid_table_index` after `xd64_table_change(key, pressed)`;
the first argument is its value before the call, which the function overwrites. -/
def xd64_table_change (h : HidCodes) (_hid_table_index : Nat) (key : Nat) (pressed : Bool) :
    Nat :=
  if key = h.HID_X_FN1 ∧ pressed = true then HID_TABLE_FN1 else HID_TABLE_BASE

/-! ## Key mapper (lines 144-182) -/

/-- Lines 153-178: the value returned for a non-zero table entry `hid`. -/
def usLayoutMap (h : HidCodes) (fn us_layout : Bool) (hid : Nat) : Nat :=
  if us_layout then
    if hid = h.HID_CAPS ∧ fn = false then h.HID_IME_OFF
    else if hid = h.HID_J_BSLASH then h.HID_BSLASH
    else if hid = h.HID_J_AT then h.HID_LBRACK
    else if hid = h.HID_J_LBRACK then h.HID_RBRACK
    else if hid = h.HID_J_UL then (if fn then hid else h.HID_R_SHIFT)
    else if hid = h.HID_MUHENKAN then h.HID_F14
    else if hid = h.HID_HENKAN then h.HID_F15
    else if hid = h.HID_HIRAGANA then h.HID_IME_ON
    else hid
  else hid

/-- The call `xd64_get_key(pressed, us_layout)` where `xd_get_buffer()` returns `popped`
and the table index is `hid_table_index`. The result is the returned usage id and the
value of the reference `pressed` after the call; `none` when the table is read out of
bounds. -/
def xd64_get_key (h : HidCodes) (hid_table_index : Nat) (popped : Nat) (pressed : Bool)
    (us_layout : Bool) : Option (Nat × Bool) :=
  let fn : Bool := hid_table_index == HID_TABLE_FN1
  if popped = 0 then some (0, pressed)
  else
    let pressed := pressedOf popped
    let k := scanCodeOf popped
    if k ≤ SW_COUNT then
      match tableRead h hid_table_index ((k : Int) - 1) with
      | none => none
      | some hid => if hid ≠ 0 then some (usLayoutMap h fn us_layout hid, pressed) else some (0, pressed)
    else some (0, pressed)

/-! ## What the mapper needs of `hid_keycode.h` -/

/-- The eight usage codes that lines 154-171 of `xd64_get_key` compare a table entry with:
`HID_CAPS` and the seven `case` labels of the `switch`. -/
def overrideKeys (h : HidCodes) : List Nat :=
  [h.HID_CAPS, h.HID_J_BSLASH, h.HID_J_AT, h.HID_J_LBRACK, h.HID_J_UL, h.HID_MUHENKAN,
    h.HID_HENKAN, h.HID_HIRAGANA]

/-- The header gives the eight codes of `overrideKeys` non-zero, pairwise different values
(the seven `case` labels of one `switch` cannot coincide, and 0 is the unmapped entry). -/
def OverrideKeysDistinct (h : HidCodes) : Prop :=
  (0 :: overrideKeys h).Nodup

instance (h : HidCodes) : Decidable (OverrideKeysDistinct h) := by
  unfold OverrideKeysDistinct; infer_instance

/-- The usage codes, other than `HID_X_FN1`, that `scan_to_hid_table` names. -/
def otherTableCodes (h : HidCodes) : List Nat :=
  [ h.HID_ESCAPE, h.HID_1, h.HID_2, h.HID_3, h.HID_4, h.HID_5, h.HID_6, h.HID_7, h.HID_8, h.HID_9,
    h.HID_0, h.HID_MINUS, h.HID_EQL, h.HID_J_BSLASH, h.HID_TAB, h.HID_Q, h.HID_W, h.HID_E, h.HID_R, h.HID_T,
    h.HID_Y, h.HID_U, h.HID_I, h.HID_O, h.HID_P, h.HID_J_AT, h.HID_J_LBRACK, h.HID_UNDEF, h.HID_CAPS, h.HID_A,
    h.HID_S, h.HID_D, h.HID_F, h.HID_G, h.HID_H, h.HID_J, h.HID_K, h.HID_L, h.HID_SEMICOL, h.HID_QUOTE,
    h.HID_J_RBR_32, h.HID_ENTER, h.HID_L_SHIFT, h.HID_Z, h.HID_X, h.HID_C, h.HID_V, h.HID_B, h.HID_N,
    h.HID_M, h.HID_COMMA, h.HID_PERIOD, h.HID_SLASH, h.HID_DELETE, h.HID_U_ARROW, h.HID_L_CTRL, h.HID_L_GUI, h.HID_L_ALT,
    h.HID_HIRAGANA, h.HID_SPACE, h.HID_MUHENKAN, h.HID_J_UL, h.HID_L_ARROW, h.HID_BACKSP, h.HID_R_CTRL, h.HID_D_ARROW, h.HID_R_ARROW,
    h.HID_GRAVE_AC, h.HID_F1, h.HID_F2, h.HID_F3, h.HID_F4, h.HID_F5, h.HID_F6, h.HID_F7, h.HID_F8, h.HID_F9,
    h.HID_F10, h.HID_F11, h.HID_F12, h.HID_INSERT, h.HID_F13, h.HID_F14, h.HID_F15, h.HID_F16, h.HID_F17,
    h.HID_F18, h.HID_F19, h.HID_F20, h.HID_F21, h.HID_PRNTSCRN, h.HID_SCRLOCK, h.HID_PAUSE,
    h.FN_MEDIA_MUTE, h.FN_MEDIA_V_DN, h.FN_MEDIA_V_UP, h.HID_PGUP,
    h.HID_APP, h.HID_HENKAN, h.HID_HOME, h.HID_PGDOWN, h.HID_END ]

/-! ## Event buffer (collaborator, not part of this source file) -/

/-- Modelled from the spec: `xd_put_buffer`, the `push(byte)` of the event buffer, a
first-in first-out queue between the timer tick and the polling consumer (no reordering).
The overflow policy is not specified; the model is unbounded. -/
def xd_put_buffer (buf : List Nat) (c : Nat) : List Nat := buf ++ [c]

/-- Modelled from the spec: `xd_get_buffer`, the `pop()` of the event buffer: the oldest
byte, or the empty sentinel 0 when no event is pending. -/
def xd_get_buffer : List Nat → Nat × List Nat
  | [] => (0, [])
  | b :: rest => (b, rest)

/-! ## Snapshots and event histories used to state the claims -/

/-- The raw snapshot in which the bit of switch `s` is set and every other bit is clear. -/
def onlySwitch (s : Nat) : List Nat :=
  zeroSnapshot.set (switchByte s) (2 ^ switchBitIdx s)

/-- The press flags of the events for scan code `s` among the bytes pushed over a run of
ticks, oldest first. -/
def flagsFor (s : Nat) (pushed : List (List Nat)) : List Bool :=
  (pushed.flatten.filter fun b => scanCodeOf b == s).map pressedOf

/-- The flags alternate, starting with `first`. -/
def alternatesFrom : Bool → List Bool → Bool
  | _, [] => true
  | first, x :: xs => x == first && alternatesFrom (!first) xs

/-- The scan code that row-major numbering gives bit `k` of state byte `i`: 14 codes per
row (two bytes), the odd byte of a row starting 8 codes after the even one, codes from 1.
Compared with the running `code + k` of `matrix_scan` in C16. -/
def rowMajorCode (i k : Nat) : Nat := 14 * (i / 2) + 8 * (i % 2) + k + 1

/-- Bits 6 and 7 of the odd state bytes are clear, as in every snapshot `read_cols` stores
(line 48 masks the second byte of a row with 0x3f). -/
def UnusedBitsClear (s : List Nat) : Prop :=
  ∀ i, i < STATE_COUNT → s.getD i 0 < 2 ^ deltaOf i

instance (s : List Nat) : Decidable (UnusedBitsClear s) := by
  unfold UnusedBitsClear; infer_instance

/-! ## The two scan loops compute their closed forms -/

theorem and_two_pow_ne_zero (x k : Nat) : x &&& 2 ^ k ≠ 0 ↔ x.testBit k = true := by
  rw [Nat.and_two_pow]
  cases h : x.testBit k <;> simp

theorem scanBit_foldl (code pressed change : Nat) (buf : List Nat) :
    ∀ n, n ≤ 8 → (List.range n).foldl (scanBit code pressed change) (1, buf)
      = (2 ^ n % 256, buf ++ bitEvents code pressed change n) := by
  intro n
  induction n with
  | zero => intro _; simp [bitEvents]
  | succ n ih =>
    intro hn
    have hn8 : n < 8 := by omega
    have hpow : 2 ^ n % 256 = 2 ^ n := by
      apply Nat.mod_eq_of_lt
      calc 2 ^ n < 2 ^ 8 := Nat.pow_lt_pow_right (by norm_num) hn8
        _ = 256 := by norm_num
    rw [List.range_succ, List.foldl_append, ih (by omega)]
    simp only [List.foldl_cons, List.foldl_nil, scanBit, hpow, bitEvents, List.range_succ,
      List.filterMap_append, List.filterMap_cons, List.filterMap_nil]
    congr 1
    · rw [Nat.shiftLeft_eq, Nat.pow_one, Nat.pow_succ]
    · by_cases hb : change.testBit n = true
      · have := (and_two_pow_ne_zero change n).2 hb
        simp [hb, this]
      · have h0 : ¬ (change &&& 2 ^ n ≠ 0) := fun h => hb ((and_two_pow_ne_zero change n).1 h)
        simp only [ne_eq, Bool.not_eq_true] at hb
        simp [hb, h0]

theorem bitEvents_zero_change (code pressed n : Nat) : bitEvents code pressed 0 n = [] := by
  simp [bitEvents]

theorem deltaOf_le (i : Nat) : deltaOf i ≤ 8 := by
  unfold deltaOf; split <;> omega

theorem set_take_drop (tmp last : List Nat) (n : Nat) (h1 : n < tmp.length)
    (h2 : n < last.length) :
    (tmp.take n ++ last.drop n).set n (tmp.getD n 0) = tmp.take (n + 1) ++ last.drop (n + 1) := by
  have hlen : (tmp.take n).length = n := by simp; omega
  rw [List.set_append_right _ _ (by omega), hlen, Nat.sub_self, List.drop_eq_getElem_cons h2,
    List.set_cons_zero, List.getD_eq_getElem?_getD, List.getElem?_eq_getElem h1]
  rw [List.take_succ, List.getElem?_eq_getElem h1]
  simp only [Option.toList, List.append_assoc, List.singleton_append, Option.getD_some]

theorem getD_take_drop (tmp last : List Nat) (n : Nat) (h1 : n < tmp.length) :
    (tmp.take n ++ last.drop n).getD n 0 = last.getD n 0 := by
  have hlen : (tmp.take n).length = n := by simp; omega
  simp only [List.getD_eq_getElem?_getD]
  rw [List.getElem?_append_right (by omega), hlen]
  simp

theorem take_drop_of_eq (tmp last : List Nat) (n : Nat) (h1 : n < tmp.length)
    (h2 : n < last.length) (h : tmp.getD n 0 = last.getD n 0) :
    tmp.take n ++ last.drop n = tmp.take (n + 1) ++ last.drop (n + 1) := by
  rw [List.drop_eq_getElem_cons h2, List.take_succ]
  simp only [List.getD_eq_getElem?_getD, List.getElem?_eq_getElem h1,
    List.getElem?_eq_getElem h2, Option.getD_some] at h
  rw [List.getElem?_eq_getElem h1, h]
  simp only [Option.toList, List.append_assoc, List.singleton_append]

theorem scanByte_foldl (tmp last : List Nat) (hlen : tmp.length = last.length) :
    ∀ n, n ≤ tmp.length → (List.range n).foldl (scanByte tmp) ⟨1, last, []⟩
      = ⟨codeAt n, tmp.take n ++ last.drop n, eventsUpTo tmp last n⟩ := by
  intro n
  induction n with
  | zero => intro _; simp [codeAt, eventsUpTo]
  | succ n ih =>
    intro hn
    have h1 : n < tmp.length := by omega
    have h2 : n < last.length := by omega
    rw [List.range_succ, List.foldl_append, ih (by omega)]
    simp only [List.foldl_cons, List.foldl_nil, scanByte, getD_take_drop tmp last n h1]
    by_cases hc : tmp.getD n 0 ^^^ last.getD n 0 = 0
    · have heq : tmp.getD n 0 = last.getD n 0 := Nat.xor_eq_zero.1 hc
      simp only [hc, ne_eq, not_true_eq_false, if_false, codeAt, eventsUpTo,
        bitEvents_zero_change, List.append_nil]
      rw [take_drop_of_eq tmp last n h1 h2 heq]
    · simp only [hc, ne_eq, not_false_eq_true, if_true, codeAt, eventsUpTo,
        scanBit_foldl _ _ _ _ _ (deltaOf_le n), set_take_drop tmp last n h1 h2]

/-! ## The two branches of `matrix_scan` -/

theorem memcmp_eq_zero_iff : ∀ (n : Nat) (a b : List Nat), a.length = n → b.length = n →
    (memcmp a b n = 0 ↔ a = b) := by
  intro n
  induction n with
  | zero =>
    intro a b ha hb
    simp [memcmp, List.length_eq_zero.1 ha, List.length_eq_zero.1 hb]
  | succ n ih =>
    intro a b ha hb
    match a, b, ha, hb with
    | x :: a, y :: b, ha, hb =>
      simp only [List.length_cons, Nat.add_right_cancel_iff] at ha hb
      simp only [memcmp, List.headD_cons, List.tail_cons, List.cons.injEq]
      by_cases hxy : x = y
      · simp [hxy, ih a b ha hb]
      · have : (x : Int) - (y : Int) ≠ 0 := by omega
        simp [hxy, this]

theorem matrix_scan_confirm (e : Engine) (raw : List Nat) (hr : IsSnapshot raw)
    (hl : IsSnapshot e.last_key_state) (heq : raw = e.key_state) :
    matrix_scan e raw
      = ({ e with last_key_state := raw }, eventsUpTo raw e.last_key_state STATE_COUNT) := by
  have h0 : memcmp raw e.key_state STATE_COUNT = 0 :=
    (memcmp_eq_zero_iff STATE_COUNT raw e.key_state hr.1 (heq ▸ hr.1)).2 heq
  have hlen : raw.length = e.last_key_state.length := by rw [hr.1, hl.1]
  simp only [matrix_scan, h0, ne_eq, not_true_eq_false, if_false]
  rw [scanByte_foldl raw e.last_key_state hlen STATE_COUNT (by rw [hr.1])]
  have h1 : List.take STATE_COUNT raw = raw := by rw [← hr.1, List.take_length]
  have h2 : List.drop STATE_COUNT e.last_key_state = [] := by rw [← hl.1, List.drop_length]
  simp only [h1, h2, List.append_nil]

theorem matrix_scan_differ (e : Engine) (raw : List Nat) (hr : IsSnapshot raw)
    (hk : IsSnapshot e.key_state) (hne : raw ≠ e.key_state) :
    matrix_scan e raw = ({ e with key_state := raw }, []) := by
  have h0 : memcmp raw e.key_state STATE_COUNT ≠ 0 := fun h =>
    hne ((memcmp_eq_zero_iff STATE_COUNT raw e.key_state hr.1 hk.1).1 h)
  simp only [matrix_scan, h0, ne_eq, not_false_eq_true, if_true, memcpy]
  rw [← hr.1, List.take_length, hr.1, ← hk.1, List.drop_length, List.append_nil]

theorem mem_bitEvents (code pressed change n b : Nat) :
    b ∈ bitEvents code pressed change n ↔
      ∃ k, k < n ∧ change.testBit k = true ∧ b = eventByte code k pressed (2 ^ k) := by
  simp only [bitEvents, List.mem_filterMap, List.mem_range]
  constructor
  · rintro ⟨k, hk, h⟩
    by_cases hb : change.testBit k = true
    · simp only [hb, if_true, Option.some.injEq] at h
      exact ⟨k, hk, hb, h.symm⟩
    · simp [hb] at h
  · rintro ⟨k, hk, hb, rfl⟩
    exact ⟨k, hk, by simp [hb]⟩

theorem mem_eventsUpTo (tmp last : List Nat) (b : Nat) : ∀ n,
    (b ∈ eventsUpTo tmp last n ↔
      ∃ i, i < n ∧ ∃ k, k < deltaOf i ∧ (tmp.getD i 0 ^^^ last.getD i 0).testBit k = true ∧
        b = eventByte (codeAt i) k (tmp.getD i 0) (2 ^ k)) := by
  intro n
  induction n with
  | zero => simp [eventsUpTo]
  | succ n ih =>
    simp only [eventsUpTo, List.mem_append, ih, mem_bitEvents]
    constructor
    · rintro (⟨i, hi, h⟩ | h)
      · exact ⟨i, by omega, h⟩
      · exact ⟨n, by omega, h⟩
    · rintro ⟨i, hi, h⟩
      by_cases hin : i = n
      · subst hin; exact Or.inr h
      · exact Or.inl ⟨i, by omega, h⟩

/-! ## Scan codes, switch positions and the event byte -/

theorem position_code : ∀ i, i < 10 → ∀ k, k < deltaOf i →
    1 ≤ codeAt i + k ∧ codeAt i + k ≤ 70 ∧ switchByte (codeAt i + k) = i ∧
      switchBitIdx (codeAt i + k) = k := by
  decide

theorem code_position : ∀ s, s < 71 → 1 ≤ s →
    switchByte s < 10 ∧ switchBitIdx s < deltaOf (switchByte s) ∧
      codeAt (switchByte s) + switchBitIdx s = s := by
  decide

theorem codeAt_mono : ∀ n, n < 11 → ∀ i, i < n → ∀ k, k < deltaOf i →
    codeAt i + k < codeAt n := by
  decide

theorem scanCodeOf_or : ∀ s, s < 128 →
    scanCodeOf (s ||| 0) = s ∧ scanCodeOf (s ||| 0x80) = s ∧
      pressedOf (s ||| 0) = true ∧ pressedOf (s ||| 0x80) = false := by
  decide

theorem eventByte_eq (code k pressed : Nat) (h : code + k < 128) :
    eventByte code k pressed (2 ^ k)
      = (code + k) ||| (if pressed.testBit k = true then 0 else 0x80) := by
  have hm : (code + k) % 256 = code + k := Nat.mod_eq_of_lt (by omega)
  unfold eventByte
  simp only [hm]
  by_cases hb : pressed.testBit k = true
  · simp [hb, (and_two_pow_ne_zero pressed k).2 hb]
  · have h0 : ¬ (pressed &&& 2 ^ k ≠ 0) := fun h => hb ((and_two_pow_ne_zero pressed k).1 h)
    simp [h0, hb]

theorem scanCodeOf_eventByte (code k pressed : Nat) (h : code + k < 128) :
    scanCodeOf (eventByte code k pressed (2 ^ k)) = code + k := by
  rw [eventByte_eq code k pressed h]
  have := scanCodeOf_or (code + k) h
  split
  · exact this.1
  · exact this.2.1

theorem pressedOf_eventByte (code k pressed : Nat) (h : code + k < 128) :
    pressedOf (eventByte code k pressed (2 ^ k)) = pressed.testBit k := by
  rw [eventByte_eq code k pressed h]
  have := scanCodeOf_or (code + k) h
  by_cases hb : pressed.testBit k = true
  · simp only [hb, if_true]; exact this.2.2.1
  · simp only [Bool.not_eq_true] at hb
    simp only [hb, Bool.false_eq_true, if_false]
    exact this.2.2.2

/-! ## Order and content of the bytes pushed in a confirming tick -/

theorem bitEvents_sorted (code pressed change : Nat) : ∀ n, code + n ≤ 128 →
    ((bitEvents code pressed change n).map scanCodeOf).Pairwise (· < ·) := by
  intro n
  induction n with
  | zero => intro _; simp [bitEvents]
  | succ n ih =>
    intro hn
    have hprev : ∀ b ∈ bitEvents code pressed change n, scanCodeOf b < code + n := by
      intro b hb
      obtain ⟨k, hk, _, rfl⟩ := (mem_bitEvents code pressed change n b).1 hb
      rw [scanCodeOf_eventByte code k pressed (by omega)]
      omega
    have hsucc : bitEvents code pressed change (n + 1) = bitEvents code pressed change n ++
        (if change.testBit n = true then [eventByte code n pressed (2 ^ n)] else []) := by
      by_cases hb : change.testBit n = true <;>
        simp [bitEvents, List.range_succ, List.filterMap_append, hb]
    rw [hsucc, List.map_append, List.pairwise_append]
    refine ⟨ih (by omega), ?_, ?_⟩
    · split <;> simp
    · intro a ha c hc
      obtain ⟨b, hb, rfl⟩ := List.mem_map.1 ha
      split at hc
      · simp only [List.map_cons, List.map_nil, List.mem_singleton] at hc
        rw [hc, scanCodeOf_eventByte code n pressed (by omega)]
        exact hprev b hb
      · simp at hc

theorem codeAt_succ_le : ∀ n, n < 10 → codeAt n + deltaOf n ≤ 71 := by
  decide

theorem eventsUpTo_sorted (tmp last : List Nat) : ∀ n, n ≤ 10 →
    ((eventsUpTo tmp last n).map scanCodeOf).Pairwise (· < ·) := by
  intro n
  induction n with
  | zero => intro _; simp [eventsUpTo]
  | succ n ih =>
    intro hn
    have hn10 : n < 10 := by omega
    have hle : codeAt n + deltaOf n ≤ 128 := by
      have := codeAt_succ_le n hn10
      omega
    simp only [eventsUpTo, List.map_append, List.pairwise_append]
    refine ⟨ih (by omega), bitEvents_sorted _ _ _ _ hle, ?_⟩
    intro a ha c hc
    obtain ⟨b, hb, rfl⟩ := List.mem_map.1 ha
    obtain ⟨d, hd, rfl⟩ := List.mem_map.1 hc
    obtain ⟨i, hi, k, hk, _, rfl⟩ := (mem_eventsUpTo tmp last b n).1 hb
    obtain ⟨k2, hk2, _, rfl⟩ := (mem_bitEvents _ _ _ _ d).1 hd
    have h1 := (position_code i (by omega) k hk).2.1
    rw [scanCodeOf_eventByte _ _ _ (by omega), scanCodeOf_eventByte _ _ _ (by omega)]
    have := codeAt_mono n (by omega) i hi k hk
    omega

theorem events_sound (tmp last : List Nat) (b : Nat)
    (hb : b ∈ eventsUpTo tmp last STATE_COUNT) :
    1 ≤ scanCodeOf b ∧ scanCodeOf b ≤ 70 ∧
      switchOn tmp (scanCodeOf b) ≠ switchOn last (scanCodeOf b) ∧
      pressedOf b = switchOn tmp (scanCodeOf b) ∧
      b = scanCodeOf b ||| (if switchOn tmp (scanCodeOf b) = true then 0 else 0x80) := by
  obtain ⟨i, hi, k, hk, hx, rfl⟩ := (mem_eventsUpTo tmp last b STATE_COUNT).1 hb
  obtain ⟨h1, h70, hbyte, hbit⟩ := position_code i hi k hk
  have h128 : codeAt i + k < 128 := by omega
  rw [scanCodeOf_eventByte _ _ _ h128, pressedOf_eventByte _ _ _ h128]
  have hsw : ∀ l : List Nat, switchOn l (codeAt i + k) = (l.getD i 0).testBit k := by
    intro l; simp only [switchOn, hbyte, hbit]
  rw [hsw tmp, hsw last]
  refine ⟨h1, h70, ?_, rfl, eventByte_eq _ _ _ h128⟩
  rw [Nat.testBit_xor] at hx
  intro heq
  rw [heq] at hx
  simp at hx

theorem events_complete (tmp last : List Nat) (s : Nat) (h1 : 1 ≤ s) (h70 : s ≤ 70)
    (hne : switchOn tmp s ≠ switchOn last s) :
    s ∈ (eventsUpTo tmp last STATE_COUNT).map scanCodeOf := by
  obtain ⟨hi, hk, hs⟩ := code_position s (by omega) h1
  refine List.mem_map.2 ⟨eventByte (codeAt (switchByte s)) (switchBitIdx s)
    (tmp.getD (switchByte s) 0) (2 ^ switchBitIdx s), ?_, ?_⟩
  · refine (mem_eventsUpTo tmp last _ STATE_COUNT).2 ⟨switchByte s, hi, switchBitIdx s, hk, ?_, rfl⟩
    rw [Nat.testBit_xor]
    simp only [switchOn] at hne
    revert hne
    cases (tmp.getD (switchByte s) 0).testBit (switchBitIdx s) <;>
      cases (last.getD (switchByte s) 0).testBit (switchBitIdx s) <;> simp
  · rw [scanCodeOf_eventByte _ _ _ (by omega), hs]

theorem count_scanCode (tmp last : List Nat) (s : Nat) (h1 : 1 ≤ s) (h70 : s ≤ 70) :
    ((eventsUpTo tmp last STATE_COUNT).map scanCodeOf).count s
      = if switchOn tmp s ≠ switchOn last s then 1 else 0 := by
  have hnd : ((eventsUpTo tmp last STATE_COUNT).map scanCodeOf).Nodup :=
    (eventsUpTo_sorted tmp last STATE_COUNT (by decide)).imp (fun h => Nat.ne_of_lt h)
  rw [List.count_eq_of_nodup hnd]
  by_cases hne : switchOn tmp s ≠ switchOn last s
  · simp only [events_complete tmp last s h1 h70 hne, if_true, hne, ne_eq, not_false_eq_true]
  · have : s ∉ (eventsUpTo tmp last STATE_COUNT).map scanCodeOf := by
      intro hmem
      obtain ⟨b, hb, rfl⟩ := List.mem_map.1 hmem
      exact hne (events_sound tmp last b hb).2.2.1
    simp only [this, if_false, hne]

/-! ## Scan engine: single ticks (C1, C2) -/

/-- C1. Confirming tick: when the raw snapshot equals `key_state`, the bytes pushed in the
tick carry each scan code in 1..70 exactly once if the bit of that switch differs between
the raw snapshot and `last_key_state` and not at all otherwise, every pushed byte has a
scan code in 1..70 and a pressed flag equal to the bit of its switch in the raw snapshot,
and afterwards `last_key_state` is the raw snapshot (`key_state` stays as it is). -/
theorem C1_confirming_tick (e : Engine) (raw : List Nat) (hr : IsSnapshot raw)
    (hl : IsSnapshot e.last_key_state) (heq : raw = e.key_state) :
    (∀ s, 1 ≤ s → s ≤ SW_COUNT →
      ((matrix_scan e raw).2.map scanCodeOf).count s
        = if switchOn raw s ≠ switchOn e.last_key_state s then 1 else 0) ∧
    (∀ b ∈ (matrix_scan e raw).2,
      1 ≤ scanCodeOf b ∧ scanCodeOf b ≤ SW_COUNT ∧ pressedOf b = switchOn raw (scanCodeOf b)) ∧
    (matrix_scan e raw).1.last_key_state = raw ∧
    (matrix_scan e raw).1.key_state = e.key_state := by
  rw [matrix_scan_confirm e raw hr hl heq]
  refine ⟨fun s h1 h70 => count_scanCode raw _ s h1 h70, fun b hb => ?_, rfl, rfl⟩
  have := events_sound raw _ b hb
  exact ⟨this.1, this.2.1, this.2.2.2.1⟩

/-- C1 at a concrete confirming tick: switches 1, 14 and 70 change; scan code 14 is pushed
once and `last_key_state` becomes the raw snapshot. -/
theorem C1_confirming_tick_witness :
    IsSnapshot [3, 0x21, 0, 0, 0, 0, 0, 0, 0, 0x3f] ∧
    ((matrix_scan ⟨[3, 0x21, 0, 0, 0, 0, 0, 0, 0, 0x3f], [2, 0x01, 0, 0, 0, 0, 0, 0, 0, 0x1f]⟩
        [3, 0x21, 0, 0, 0, 0, 0, 0, 0, 0x3f]).2.map scanCodeOf).count 14 = 1 ∧
    (matrix_scan ⟨[3, 0x21, 0, 0, 0, 0, 0, 0, 0, 0x3f], [2, 0x01, 0, 0, 0, 0, 0, 0, 0, 0x1f]⟩
        [3, 0x21, 0, 0, 0, 0, 0, 0, 0, 0x3f]).1.last_key_state
      = [3, 0x21, 0, 0, 0, 0, 0, 0, 0, 0x3f] :=
  ⟨by decide,
   ((C1_confirming_tick ⟨[3, 0x21, 0, 0, 0, 0, 0, 0, 0, 0x3f], [2, 0x01, 0, 0, 0, 0, 0, 0, 0, 0x1f]⟩
      [3, 0x21, 0, 0, 0, 0, 0, 0, 0, 0x3f] (by decide) (by decide) rfl).1 14 (by decide)
      (by decide)).trans (by decide),
   (C1_confirming_tick ⟨[3, 0x21, 0, 0, 0, 0, 0, 0, 0, 0x3f], [2, 0x01, 0, 0, 0, 0, 0, 0, 0, 0x1f]⟩
      [3, 0x21, 0, 0, 0, 0, 0, 0, 0, 0x3f] (by decide) (by decide) rfl).2.2.1⟩

/-- C2. Non-confirming tick: when the raw snapshot differs from `key_state`, the tick
pushes no byte, `key_state` becomes the raw snapshot and `last_key_state` is unchanged. -/
theorem C2_nonconfirming_tick (e : Engine) (raw : List Nat) (hr : IsSnapshot raw)
    (hk : IsSnapshot e.key_state) (hne : raw ≠ e.key_state) :
    (matrix_scan e raw).2 = [] ∧
    (matrix_scan e raw).1.key_state = raw ∧
    (matrix_scan e raw).1.last_key_state = e.last_key_state := by
  rw [matrix_scan_differ e raw hr hk hne]
  exact ⟨rfl, rfl, rfl⟩

/-- C2 at a concrete tick whose raw snapshot differs from `key_state`. -/
theorem C2_nonconfirming_tick_witness :
    (matrix_scan ⟨[1, 0, 0, 0, 0, 0, 0, 0, 0, 0], [4, 0, 0, 0, 0, 0, 0, 0, 0, 0]⟩
        [3, 0, 0, 0, 0, 0, 0, 0, 0, 0]).2 = [] ∧
    (matrix_scan ⟨[1, 0, 0, 0, 0, 0, 0, 0, 0, 0], [4, 0, 0, 0, 0, 0, 0, 0, 0, 0]⟩
        [3, 0, 0, 0, 0, 0, 0, 0, 0, 0]).1.key_state = [3, 0, 0, 0, 0, 0, 0, 0, 0, 0] ∧
    (matrix_scan ⟨[1, 0, 0, 0, 0, 0, 0, 0, 0, 0], [4, 0, 0, 0, 0, 0, 0, 0, 0, 0]⟩
        [3, 0, 0, 0, 0, 0, 0, 0, 0, 0]).1.last_key_state = [4, 0, 0, 0, 0, 0, 0, 0, 0, 0] :=
  C2_nonconfirming_tick ⟨[1, 0, 0, 0, 0, 0, 0, 0, 0, 0], [4, 0, 0, 0, 0, 0, 0, 0, 0, 0]⟩
    [3, 0, 0, 0, 0, 0, 0, 0, 0, 0] (by decide) (by decide) (by decide)

/-! ## Scan engine: runs from the initial engine (C3, C4) and event order (C5) -/

theorem isSnapshot_zero : IsSnapshot zeroSnapshot := by decide

theorem events_same_nil (tmp last : List Nat)
    (h : ∀ s, 1 ≤ s → s ≤ 70 → switchOn tmp s = switchOn last s) :
    eventsUpTo tmp last STATE_COUNT = [] := by
  apply List.eq_nil_iff_forall_not_mem.2
  intro b hb
  have := events_sound tmp last b hb
  exact this.2.2.1 (h _ this.1 this.2.1)

theorem switchOn_zero (s : Nat) : switchOn zeroSnapshot s = false := by
  unfold switchOn
  have : ∀ i, zeroSnapshot.getD i 0 = 0 := by
    intro i
    simp [zeroSnapshot, List.getD_eq_getElem?_getD, List.getElem?_replicate]
    split <;> rfl
  rw [this]
  exact Nat.zero_testBit _

/-- First tick from the initial engine: nothing is pushed, `key_state` holds the reading
and `last_key_state` is still all zero. -/
theorem first_tick (A : List Nat) (hA : IsSnapshot A) :
    matrix_scan initEngine A = (⟨A, zeroSnapshot⟩, []) := by
  by_cases h : A = zeroSnapshot
  · subst h
    rw [matrix_scan_confirm initEngine zeroSnapshot isSnapshot_zero isSnapshot_zero rfl]
    show ((⟨zeroSnapshot, zeroSnapshot⟩ : Engine), eventsUpTo zeroSnapshot zeroSnapshot STATE_COUNT)
      = (⟨zeroSnapshot, zeroSnapshot⟩, [])
    rw [events_same_nil zeroSnapshot zeroSnapshot (fun _ _ _ => rfl)]
  · rw [matrix_scan_differ initEngine A hA isSnapshot_zero h]
    rfl

theorem ticks_three (e : Engine) (X Y Z : List Nat) :
    ticks e [X, Y, Z] =
      ((matrix_scan (matrix_scan (matrix_scan e X).1 Y).1 Z).1,
        [(matrix_scan e X).2, (matrix_scan (matrix_scan e X).1 Y).2,
          (matrix_scan (matrix_scan (matrix_scan e X).1 Y).1 Z).2]) := rfl

/-- C3 (as stated) fails: from the initial engine the readings A, B, B with only switch 1
set in A and only switch 2 set in B push the single byte 2 on the third tick; the bit of
switch 1 differs between A and B, yet no event for scan code 1 is pushed. -/
theorem C3_counterexample :
    IsSnapshot [1, 0, 0, 0, 0, 0, 0, 0, 0, 0] ∧ IsSnapshot [2, 0, 0, 0, 0, 0, 0, 0, 0, 0] ∧
    [1, 0, 0, 0, 0, 0, 0, 0, 0, 0] ≠ [2, 0, 0, 0, 0, 0, 0, 0, 0, 0] ∧
    (ticks initEngine [[1, 0, 0, 0, 0, 0, 0, 0, 0, 0], [2, 0, 0, 0, 0, 0, 0, 0, 0, 0],
      [2, 0, 0, 0, 0, 0, 0, 0, 0, 0]]).2 = [[], [], [2]] ∧
    switchOn [1, 0, 0, 0, 0, 0, 0, 0, 0, 0] 1 ≠ switchOn [2, 0, 0, 0, 0, 0, 0, 0, 0, 0] 1 ∧
    (([2] : List Nat).map scanCodeOf).count 1 = 0 := by
  decide

/-- C3 (amended). Debounce convergence from the initial engine: for snapshots A ≠ B read
as A, B, B, nothing is pushed on the ticks of A and of the first B, and on the tick of
the second B the pushed bytes carry each scan code in 1..70 exactly once if the bit of
that switch is set in B (it differs from the all-zero `last_key_state`: A, read once, was
never accepted) and not at all otherwise, every pushed byte being a press with scan code
in 1..70; afterwards both snapshots are B. -/
theorem C3_debounce_convergence (A B : List Nat) (hA : IsSnapshot A) (hB : IsSnapshot B)
    (hne : A ≠ B) :
    ∃ ev, (ticks initEngine [A, B, B]).2 = [[], [], ev] ∧
      (∀ s, 1 ≤ s → s ≤ SW_COUNT →
        (ev.map scanCodeOf).count s = if switchOn B s = true then 1 else 0) ∧
      (∀ b ∈ ev, 1 ≤ scanCodeOf b ∧ scanCodeOf b ≤ SW_COUNT ∧ pressedOf b = true) ∧
      (ticks initEngine [A, B, B]).1 = ⟨B, B⟩ := by
  have h2 : matrix_scan ⟨A, zeroSnapshot⟩ B = (⟨B, zeroSnapshot⟩, []) :=
    matrix_scan_differ ⟨A, zeroSnapshot⟩ B hB hA (fun h => hne h.symm)
  have h3 : matrix_scan ⟨B, zeroSnapshot⟩ B
      = (⟨B, B⟩, eventsUpTo B zeroSnapshot STATE_COUNT) :=
    matrix_scan_confirm ⟨B, zeroSnapshot⟩ B hB isSnapshot_zero rfl
  refine ⟨eventsUpTo B zeroSnapshot STATE_COUNT, ?_, ?_, ?_, ?_⟩
  · rw [ticks_three, first_tick A hA, h2, h3]
  · intro s h1 h70
    rw [count_scanCode B zeroSnapshot s h1 h70, switchOn_zero]
    cases switchOn B s <;> simp
  · intro b hb
    have := events_sound B zeroSnapshot b hb
    refine ⟨this.1, this.2.1, ?_⟩
    have hd := this.2.2.1
    rw [switchOn_zero] at hd
    rw [this.2.2.2.1]
    simpa using hd
  · rw [ticks_three, first_tick A hA, h2, h3]

/-- C3 (amended) at A = switch 1 only, B = switch 2 only. -/
theorem C3_debounce_convergence_witness :
    ∃ ev, (ticks initEngine [[1, 0, 0, 0, 0, 0, 0, 0, 0, 0], [2, 0, 0, 0, 0, 0, 0, 0, 0, 0],
        [2, 0, 0, 0, 0, 0, 0, 0, 0, 0]]).2 = [[], [], ev] ∧
      (∀ s, 1 ≤ s → s ≤ SW_COUNT →
        (ev.map scanCodeOf).count s
          = if switchOn [2, 0, 0, 0, 0, 0, 0, 0, 0, 0] s = true then 1 else 0) ∧
      (∀ b ∈ ev, 1 ≤ scanCodeOf b ∧ scanCodeOf b ≤ SW_COUNT ∧ pressedOf b = true) ∧
      (ticks initEngine [[1, 0, 0, 0, 0, 0, 0, 0, 0, 0], [2, 0, 0, 0, 0, 0, 0, 0, 0, 0],
        [2, 0, 0, 0, 0, 0, 0, 0, 0, 0]]).1
        = ⟨[2, 0, 0, 0, 0, 0, 0, 0, 0, 0], [2, 0, 0, 0, 0, 0, 0, 0, 0, 0]⟩ :=
  C3_debounce_convergence [1, 0, 0, 0, 0, 0, 0, 0, 0, 0] [2, 0, 0, 0, 0, 0, 0, 0, 0, 0]
    (by decide) (by decide) (by decide)

/-- C4. Bounce rejection from the initial engine: for snapshots A ≠ B read as A, B, A no
byte is pushed on any of the three ticks, and `last_key_state` is the same after each of
the three ticks as before the first (all zero): the transient B is never stored into it.
In particular it differs from B after every tick whenever B is not that initial value. -/
theorem C4_bounce_rejection (A B : List Nat) (hA : IsSnapshot A) (hB : IsSnapshot B)
    (hne : A ≠ B) :
    (ticks initEngine [A, B, A]).2 = [[], [], []] ∧
    (ticks initEngine [A]).1.last_key_state = initEngine.last_key_state ∧
    (ticks initEngine [A, B]).1.last_key_state = initEngine.last_key_state ∧
    (ticks initEngine [A, B, A]).1.last_key_state = initEngine.last_key_state ∧
    (B ≠ initEngine.last_key_state →
      (ticks initEngine [A]).1.last_key_state ≠ B ∧
      (ticks initEngine [A, B]).1.last_key_state ≠ B ∧
      (ticks initEngine [A, B, A]).1.last_key_state ≠ B) := by
  have h2 : matrix_scan ⟨A, zeroSnapshot⟩ B = (⟨B, zeroSnapshot⟩, []) :=
    matrix_scan_differ ⟨A, zeroSnapshot⟩ B hB hA (fun h => hne h.symm)
  have h3 : matrix_scan ⟨B, zeroSnapshot⟩ A = (⟨A, zeroSnapshot⟩, []) :=
    matrix_scan_differ ⟨B, zeroSnapshot⟩ A hA hB hne
  have t1 : ticks initEngine [A] = (⟨A, zeroSnapshot⟩, [[]]) := by
    simp only [ticks, first_tick A hA]
  have t2 : ticks initEngine [A, B] = (⟨B, zeroSnapshot⟩, [[], []]) := by
    simp only [ticks, first_tick A hA, h2]
  have t3 : ticks initEngine [A, B, A] = (⟨A, zeroSnapshot⟩, [[], [], []]) := by
    simp only [ticks, first_tick A hA, h2, h3]
  rw [t1, t2, t3]
  exact ⟨rfl, rfl, rfl, rfl, fun h => ⟨fun h' => h h'.symm, fun h' => h h'.symm,
    fun h' => h h'.symm⟩⟩

/-- C4 at A = switch 1 only, B = switch 2 only. -/
theorem C4_bounce_rejection_witness :
    (ticks initEngine [[1, 0, 0, 0, 0, 0, 0, 0, 0, 0], [2, 0, 0, 0, 0, 0, 0, 0, 0, 0],
      [1, 0, 0, 0, 0, 0, 0, 0, 0, 0]]).2 = [[], [], []] ∧
    (ticks initEngine [[1, 0, 0, 0, 0, 0, 0, 0, 0, 0], [2, 0, 0, 0, 0, 0, 0, 0, 0, 0],
      [1, 0, 0, 0, 0, 0, 0, 0, 0, 0]]).1.last_key_state = initEngine.last_key_state :=
  ⟨(C4_bounce_rejection [1, 0, 0, 0, 0, 0, 0, 0, 0, 0] [2, 0, 0, 0, 0, 0, 0, 0, 0, 0]
      (by decide) (by decide) (by decide)).1,
   (C4_bounce_rejection [1, 0, 0, 0, 0, 0, 0, 0, 0, 0] [2, 0, 0, 0, 0, 0, 0, 0, 0, 0]
      (by decide) (by decide) (by decide)).2.2.2.1⟩

/-- C5. Event ordering: the bytes pushed by one call of `matrix_scan` have strictly
ascending scan codes, in push order. -/
theorem C5_event_order (e : Engine) (raw : List Nat) (hr : IsSnapshot raw)
    (hk : IsSnapshot e.key_state) (hl : IsSnapshot e.last_key_state) :
    ((matrix_scan e raw).2.map scanCodeOf).Pairwise (· < ·) := by
  by_cases heq : raw = e.key_state
  · rw [matrix_scan_confirm e raw hr hl heq]
    exact eventsUpTo_sorted raw e.last_key_state STATE_COUNT (by decide)
  · rw [matrix_scan_differ e raw hr hk heq]
    exact List.Pairwise.nil

/-- C5 at a concrete confirming tick in which switches 1, 14 and 70 change. -/
theorem C5_event_order_witness :
    ((matrix_scan ⟨[3, 0x21, 0, 0, 0, 0, 0, 0, 0, 0x3f], [2, 0x01, 0, 0, 0, 0, 0, 0, 0, 0x1f]⟩
        [3, 0x21, 0, 0, 0, 0, 0, 0, 0, 0x3f]).2.map scanCodeOf).Pairwise (· < ·) :=
  C5_event_order ⟨[3, 0x21, 0, 0, 0, 0, 0, 0, 0, 0x3f], [2, 0x01, 0, 0, 0, 0, 0, 0, 0, 0x1f]⟩
    [3, 0x21, 0, 0, 0, 0, 0, 0, 0, 0x3f] (by decide) (by decide) (by decide)

/-! ## Key mapper and event codec (C6 - C9) -/

theorem table_rows (h : HidCodes) (t : Nat) (ht : t < 2) :
    ∃ row, (scan_to_hid_table h)[t]? = some row ∧ row.length = SW_COUNT := by
  have : t = 0 ∨ t = 1 := by omega
  rcases this with rfl | rfl
  · exact ⟨_, rfl, rfl⟩
  · exact ⟨_, rfl, rfl⟩

theorem tableRead_some (h : HidCodes) (t c : Nat) (ht : t < 2) (h1 : 1 ≤ c)
    (h70 : c ≤ SW_COUNT) : ∃ hid, tableRead h t ((c : Int) - 1) = some hid := by
  obtain ⟨row, hrow, hlen⟩ := table_rows h t ht
  have hc1 : (0 : Int) ≤ (c : Int) - 1 := by omega
  have hc2 : (c : Int) - 1 < (SW_COUNT : Int) := by omega
  have hlt : ((c : Int) - 1).toNat < row.length := by rw [hlen]; omega
  refine ⟨row[((c : Int) - 1).toNat], ?_⟩
  simp only [tableRead, hrow, hc1, hc2, and_self, if_true]
  exact List.getElem?_eq_getElem hlt

theorem scanCodeOf_pos_ne (b : Nat) (h : 1 ≤ scanCodeOf b) : b ≠ 0 ∧ b ≠ 0x80 := by
  constructor
  · rintro rfl; revert h; decide
  · rintro rfl; revert h; decide

/-- For an event byte with scan code in 1..70 the mapper reads the table inside its 70
entries and returns the decoded press flag. -/
theorem get_key_in_range (h : HidCodes) (t b : Nat) (p us : Bool) (ht : t < 2)
    (h1 : 1 ≤ scanCodeOf b) (h70 : scanCodeOf b ≤ SW_COUNT) :
    ∃ hid, tableRead h t ((scanCodeOf b : Int) - 1) = some hid ∧
      xd64_get_key h t b p us
        = some (if hid ≠ 0 then usLayoutMap h (t == HID_TABLE_FN1) us hid else 0, pressedOf b) := by
  obtain ⟨hid, hhid⟩ := tableRead_some h t (scanCodeOf b) ht h1 h70
  refine ⟨hid, hhid, ?_⟩
  have hb := (scanCodeOf_pos_ne b h1).1
  simp only [xd64_get_key, hb, if_false, h70, if_true, hhid]
  split <;> rfl

theorem tableRead_eq (h : HidCodes) (t c : Nat) (ht : t < 2) (h1 : 1 ≤ c)
    (h70 : c ≤ SW_COUNT) :
    tableRead h t ((c : Int) - 1) = some (((scan_to_hid_table h).getD t []).getD (c - 1) 0) := by
  obtain ⟨row, hrow, hlen⟩ := table_rows h t ht
  have hc1 : (0 : Int) ≤ (c : Int) - 1 := by omega
  have hc2 : (c : Int) - 1 < (SW_COUNT : Int) := by omega
  have htn : ((c : Int) - 1).toNat = c - 1 := by omega
  have hlt : c - 1 < row.length := by rw [hlen]; omega
  simp only [tableRead, hrow, hc1, hc2, and_self, if_true, htn, List.getD_eq_getElem?_getD,
    Option.getD_some, List.getElem?_eq_getElem hlt]

theorem usLayoutMap_off (h : HidCodes) (fn : Bool) (hid : Nat) :
    usLayoutMap h fn false hid = hid := by
  simp [usLayoutMap]

/-- With `us_layout = false`, an event byte with scan code in 1..70 yields the table entry
at `scanCode - 1` and the decoded press flag. -/
theorem get_key_layout_off (h : HidCodes) (t b : Nat) (p : Bool) (ht : t < 2)
    (h1 : 1 ≤ scanCodeOf b) (h70 : scanCodeOf b ≤ SW_COUNT) :
    xd64_get_key h t b p false
      = some (((scan_to_hid_table h).getD t []).getD (scanCodeOf b - 1) 0, pressedOf b) := by
  obtain ⟨hid, hread, hget⟩ := get_key_in_range h t b p false ht h1 h70
  rw [tableRead_eq h t (scanCodeOf b) ht h1 h70] at hread
  rw [hget, usLayoutMap_off, Option.some.inj hread]
  by_cases hz : hid = 0
  · simp [hz]
  · simp [hz]

/-- C6. Scan-code range: every byte pushed by `matrix_scan` has scan code in 1..70; it is
neither 0 nor 0x80, the index `scanCode - 1` lies inside the 70-entry table, and
`xd64_get_key` on it, for either table, reads the table in bounds. -/
theorem C6_scan_code_range (e : Engine) (raw : List Nat) (hr : IsSnapshot raw)
    (hk : IsSnapshot e.key_state) (hl : IsSnapshot e.last_key_state) :
    ∀ b ∈ (matrix_scan e raw).2,
      1 ≤ scanCodeOf b ∧ scanCodeOf b ≤ SW_COUNT ∧ b ≠ 0 ∧ b ≠ 0x80 ∧ b < 256 ∧
      0 ≤ (scanCodeOf b : Int) - 1 ∧ (scanCodeOf b : Int) - 1 < (SW_COUNT : Int) ∧
      ∀ (h : HidCodes) (t : Nat) (p us : Bool), t < 2 → xd64_get_key h t b p us ≠ none := by
  intro b hb
  by_cases heq : raw = e.key_state
  · rw [matrix_scan_confirm e raw hr hl heq] at hb
    have hs := events_sound raw e.last_key_state b hb
    have h1 := hs.1
    have h70 : scanCodeOf b ≤ SW_COUNT := hs.2.1
    have hlt : b < 256 := by
      rw [hs.2.2.2.2]
      have h7 : scanCodeOf b < 2 ^ 8 := by
        have : scanCodeOf b ≤ 70 := hs.2.1
        omega
      have : (if switchOn raw (scanCodeOf b) = true then 0 else 0x80) < 2 ^ 8 := by
        split <;> norm_num
      exact Nat.or_lt_two_pow h7 this
    have h70i : scanCodeOf b ≤ 70 := hs.2.1
    refine ⟨h1, h70, (scanCodeOf_pos_ne b h1).1, (scanCodeOf_pos_ne b h1).2, hlt, by omega,
      by simp only [SW_COUNT, ROW_COUNT, COL_COUNT]; omega, ?_⟩
    intro h t p us ht
    obtain ⟨hid, _, hget⟩ := get_key_in_range h t b p us ht h1 h70
    rw [hget]
    exact Option.some_ne_none _
  · rw [matrix_scan_differ e raw hr hk heq] at hb
    simp at hb

/-- C6 at a concrete tick: bits 6 and 7 of the odd bytes are set in the raw snapshot, the
byte 14 is pushed, and it satisfies every bound of C6. -/
theorem C6_scan_code_range_witness :
    14 ∈ (matrix_scan ⟨[3, 0xff, 0, 0, 0, 0, 0, 0, 0, 0xff], [2, 0x01, 0, 0, 0, 0, 0, 0, 0, 0x1f]⟩
        [3, 0xff, 0, 0, 0, 0, 0, 0, 0, 0xff]).2 ∧
      1 ≤ scanCodeOf 14 ∧ scanCodeOf 14 ≤ SW_COUNT ∧ (14 : Nat) ≠ 0 ∧ (14 : Nat) ≠ 0x80 ∧
      (14 : Nat) < 256 ∧ xd64_get_key sampleCodes HID_TABLE_BASE 14 false false ≠ none :=
  have hw := C6_scan_code_range
    ⟨[3, 0xff, 0, 0, 0, 0, 0, 0, 0, 0xff], [2, 0x01, 0, 0, 0, 0, 0, 0, 0, 0x1f]⟩
    [3, 0xff, 0, 0, 0, 0, 0, 0, 0, 0xff] (by decide) (by decide) (by decide) 14 (by decide)
  ⟨by decide, hw.1, hw.2.1, hw.2.2.1, hw.2.2.2.1, hw.2.2.2.2.1,
    hw.2.2.2.2.2.2.2 sampleCodes HID_TABLE_BASE false false (by decide)⟩

theorem eventByte_codec (code k pressed mask : Nat) (h : code + k < 128) :
    eventByte code k pressed mask
        = (code + k) ||| (if pressed &&& mask ≠ 0 then 0 else 0x80) ∧
      scanCodeOf (eventByte code k pressed mask) = code + k ∧
      pressedOf (eventByte code k pressed mask) = decide (pressed &&& mask ≠ 0) := by
  have hm : (code + k) % 256 = code + k := Nat.mod_eq_of_lt (by omega)
  have hor := scanCodeOf_or (code + k) h
  unfold eventByte
  simp only [hm]
  by_cases hb : pressed &&& mask = 0
  · simp only [hb, ne_eq, not_true_eq_false, if_false, decide_False]
    exact ⟨trivial, hor.2.1, hor.2.2.2⟩
  · simp only [hb, ne_eq, not_false_eq_true, if_true, decide_True]
    exact ⟨trivial, hor.1, hor.2.2.1⟩

/-- C7. Event codec round trip: for a scan code `code + k` in 1..70 the byte built by
`matrix_scan` is the scan code, or-ed with 0x80 when the state bit `pressed & mask` is
clear; decoding it as `xd64_get_key` does (`k & 0x7f`, `(k & 0x80) == 0`) gives back the
scan code and the press flag, and `xd64_get_key` on that byte sets `pressed` to the flag
and (layout flag off) returns the table entry of that scan code. -/
theorem C7_codec_round_trip (code k pressed mask : Nat) (h1 : 1 ≤ code + k)
    (h70 : code + k ≤ SW_COUNT) :
    eventByte code k pressed mask
        = (code + k) ||| (if pressed &&& mask ≠ 0 then 0 else 0x80) ∧
      scanCodeOf (eventByte code k pressed mask) = code + k ∧
      pressedOf (eventByte code k pressed mask) = decide (pressed &&& mask ≠ 0) ∧
      (∀ (h : HidCodes) (t : Nat) (p us : Bool), t < 2 →
        ∃ u, xd64_get_key h t (eventByte code k pressed mask) p us
          = some (u, decide (pressed &&& mask ≠ 0))) ∧
      (∀ (h : HidCodes) (t : Nat) (p : Bool), t < 2 →
        xd64_get_key h t (eventByte code k pressed mask) p false
          = some (((scan_to_hid_table h).getD t []).getD (code + k - 1) 0,
              decide (pressed &&& mask ≠ 0))) := by
  have h128 : code + k < 128 := by
    have : code + k ≤ 70 := h70
    omega
  obtain ⟨hb, hs, hp⟩ := eventByte_codec code k pressed mask h128
  refine ⟨hb, hs, hp, ?_, ?_⟩
  · intro h t p us ht
    obtain ⟨hid, _, hget⟩ := get_key_in_range h t (eventByte code k pressed mask) p us ht
      (by rw [hs]; exact h1) (by rw [hs]; exact h70)
    exact ⟨_, by rw [hget, hp]⟩
  · intro h t p ht
    rw [get_key_layout_off h t (eventByte code k pressed mask) p ht (by rw [hs]; exact h1)
      (by rw [hs]; exact h70), hs, hp]

/-- C7 at the release of switch 70 and the press of switch 1. -/
theorem C7_codec_round_trip_witness :
    eventByte 57 13 0x20 0x10 = 0x80 + 70 ∧ scanCodeOf (0x80 + 70) = 70 ∧
      pressedOf (0x80 + 70) = false ∧ eventByte 1 0 1 1 = 1 ∧ scanCodeOf 1 = 1 ∧
      pressedOf 1 = true :=
  ⟨(C7_codec_round_trip 57 13 0x20 0x10 (by decide) (by decide)).1.trans (by decide),
   by decide, by decide,
   (C7_codec_round_trip 1 0 1 1 (by decide) (by decide)).1.trans (by decide),
   by decide, by decide⟩

/-- For an event byte whose scan code is above 70 the mapper returns 0 and does not read
the table. -/
theorem get_key_above_range (h : HidCodes) (t b : Nat) (p us : Bool)
    (hb : SW_COUNT < scanCodeOf b) :
    xd64_get_key h t b p us = some (0, pressedOf b) := by
  have hne : b ≠ 0 := by
    rintro rfl
    revert hb; decide
  have hle : ¬ scanCodeOf b ≤ SW_COUNT := by omega
  simp only [xd64_get_key, hne, if_false, hle]

/-- C8 (failing input). When `xd_get_buffer` returns the release byte 0x80, whose scan
code is 0, `xd64_get_key` passes the test `k <= SW_COUNT` and reads the table at index
`k - 1 = -1`, outside its 70 entries, for either table and either layout flag. -/
theorem C8_release_byte_reads_out_of_bounds (h : HidCodes) (t : Nat) (p us : Bool) :
    scanCodeOf 0x80 = 0 ∧ tableRead h t ((scanCodeOf 0x80 : Int) - 1) = none ∧
      xd64_get_key h t 0x80 p us = none := by
  have hs : scanCodeOf 0x80 = 0 := by decide
  have hr : tableRead h t ((scanCodeOf 0x80 : Int) - 1) = none := by
    rw [hs]
    unfold tableRead
    split
    · rfl
    · rfl
  refine ⟨hs, hr, ?_⟩
  have h0 : scanCodeOf 0x80 ≤ SW_COUNT := by decide
  simp only [xd64_get_key, h0, if_true, hr]
  rfl

/-- C9. Alternate-layout mode off: for every scan code `c` in 1..70, with the release bit
clear or set, and either table `t`, `xd64_get_key` with `us_layout = false` returns the
table entry `scan_to_hid_table[t][c - 1]` itself (so 0 for an unmapped entry) and sets
`pressed` from the release bit. -/
theorem C9_layout_off_lookup (h : HidCodes) (t c rel : Nat) (p : Bool) (ht : t < 2)
    (h1 : 1 ≤ c) (h70 : c ≤ SW_COUNT) (hrel : rel = 0 ∨ rel = 0x80) :
    xd64_get_key h t (c ||| rel) p false
      = some (((scan_to_hid_table h).getD t []).getD (c - 1) 0, decide (rel = 0)) := by
  have h128 : c < 128 := by
    have : c ≤ 70 := h70
    omega
  have hor := scanCodeOf_or c h128
  have hsc : scanCodeOf (c ||| rel) = c := by
    rcases hrel with rfl | rfl
    · exact hor.1
    · exact hor.2.1
  have hpr : pressedOf (c ||| rel) = decide (rel = 0) := by
    rcases hrel with rfl | rfl
    · exact hor.2.2.1
    · exact hor.2.2.2
  rw [get_key_layout_off h t (c ||| rel) p ht (by rw [hsc]; exact h1) (by rw [hsc]; exact h70),
    hsc, hpr]

/-- C9 at the press of switch 1 under BASE and the release of switch 28 (unmapped) under
FN1, with the sample usage codes. -/
theorem C9_layout_off_lookup_witness :
    xd64_get_key sampleCodes HID_TABLE_BASE (1 ||| 0) false false
        = some (sampleCodes.HID_ESCAPE, true) ∧
      xd64_get_key sampleCodes HID_TABLE_FN1 (28 ||| 0x80) true false = some (0, false) :=
  ⟨C9_layout_off_lookup sampleCodes HID_TABLE_BASE 1 0 false (by decide) (by decide)
      (by decide) (by decide),
   C9_layout_off_lookup sampleCodes HID_TABLE_FN1 28 0x80 true (by decide) (by decide)
      (by decide) (by decide)⟩

/-! ## Layer switch (C10) -/

/-- C10. Layer rule: whatever `hid_table_index` was before, after
`xd64_table_change(u, p)` it is FN1 exactly when `u` is `HID_X_FN1` and `p` is true, and
BASE exactly when not; the two values differ, the result is the same for every prior
value, and the initial value is BASE. -/
theorem C10_layer_rule (h : HidCodes) (prior u : Nat) (p : Bool) :
    (xd64_table_change h prior u p = HID_TABLE_FN1 ↔ (u = h.HID_X_FN1 ∧ p = true)) ∧
    (xd64_table_change h prior u p = HID_TABLE_BASE ↔ ¬ (u = h.HID_X_FN1 ∧ p = true)) ∧
    HID_TABLE_FN1 ≠ HID_TABLE_BASE ∧
    (∀ other : Nat, xd64_table_change h other u p = xd64_table_change h prior u p) ∧
    hid_table_index_init = HID_TABLE_BASE := by
  have hne : HID_TABLE_FN1 ≠ HID_TABLE_BASE := by decide
  refine ⟨?_, ?_, hne, fun _ => rfl, rfl⟩
  · by_cases hc : u = h.HID_X_FN1 ∧ p = true
    · simp only [xd64_table_change, hc, and_self, if_true]
    · simp only [xd64_table_change, hc, if_false, iff_false]
      exact fun h' => hne h'.symm
  · by_cases hc : u = h.HID_X_FN1 ∧ p = true
    · simp only [xd64_table_change, hc, and_self, if_true, not_true_eq_false, iff_false]
      exact hne
    · simp only [xd64_table_change, hc, if_false, not_false_eq_true]

/-! ## Layer switch, other keys (C11) -/

/-- C11 (as stated) fails: with FN1 active, `xd64_table_change` called with the usage of
switch 1 (Escape, not `HID_X_FN1`), released, sets the index to BASE. -/
theorem C11_counterexample :
    sampleCodes.HID_ESCAPE ≠ sampleCodes.HID_X_FN1 ∧
    xd64_get_key sampleCodes HID_TABLE_BASE (1 ||| 0x80) true false
      = some (sampleCodes.HID_ESCAPE, false) ∧
    xd64_table_change sampleCodes HID_TABLE_FN1 sampleCodes.HID_ESCAPE false = HID_TABLE_BASE ∧
    xd64_table_change sampleCodes HID_TABLE_FN1 sampleCodes.HID_ESCAPE false ≠ HID_TABLE_FN1 := by
  decide

/-- C11 (amended). For every prior index `s`, every usage code `u` other than `HID_X_FN1`
and every pressed flag, `xd64_table_change(u, pressed)` sets the index to BASE; so it
leaves the index equal to `s` exactly when `s` is BASE. -/
theorem C11_other_keys_select_base (h : HidCodes) (s u : Nat) (p : Bool)
    (hu : u ≠ h.HID_X_FN1) :
    xd64_table_change h s u p = HID_TABLE_BASE ∧
    (xd64_table_change h s u p = s ↔ s = HID_TABLE_BASE) := by
  have hb : xd64_table_change h s u p = HID_TABLE_BASE := by
    simp only [xd64_table_change, hu, false_and, if_false]
  rw [hb]
  exact ⟨rfl, eq_comm⟩

/-- C11 (amended) at the release of switch 1 with FN1 and with BASE active. -/
theorem C11_other_keys_select_base_witness :
    xd64_table_change sampleCodes HID_TABLE_FN1 sampleCodes.HID_ESCAPE false = HID_TABLE_BASE ∧
    xd64_table_change sampleCodes HID_TABLE_BASE sampleCodes.HID_ESCAPE false = HID_TABLE_BASE :=
  ⟨(C11_other_keys_select_base sampleCodes HID_TABLE_FN1 sampleCodes.HID_ESCAPE false
      (by decide)).1,
   (C11_other_keys_select_base sampleCodes HID_TABLE_BASE sampleCodes.HID_ESCAPE false
      (by decide)).1⟩

/-! ## Alternate-layout overrides (C12 - C14) -/

/-- The table entry that `xd64_get_key` reads for an event byte with scan code in 1..70
decides its result. -/
theorem get_key_of_entry (h : HidCodes) (t b : Nat) (p us : Bool) (ht : t < 2)
    (h1 : 1 ≤ scanCodeOf b) (h70 : scanCodeOf b ≤ SW_COUNT) :
    xd64_get_key h t b p us
      = some (if ((scan_to_hid_table h).getD t []).getD (scanCodeOf b - 1) 0 ≠ 0
          then usLayoutMap h (t == HID_TABLE_FN1) us
            (((scan_to_hid_table h).getD t []).getD (scanCodeOf b - 1) 0)
          else 0, pressedOf b) := by
  obtain ⟨hid, hread, hget⟩ := get_key_in_range h t b p us ht h1 h70
  rw [tableRead_eq h t (scanCodeOf b) ht h1 h70] at hread
  rw [hget, Option.some.inj hread]

theorem overrideKeys_ne (h : HidCodes) (hd : OverrideKeysDistinct h) :
    (h.HID_CAPS ≠ 0 ∧ h.HID_J_BSLASH ≠ 0 ∧ h.HID_J_AT ≠ 0 ∧ h.HID_J_LBRACK ≠ 0 ∧
      h.HID_J_UL ≠ 0 ∧ h.HID_MUHENKAN ≠ 0 ∧ h.HID_HENKAN ≠ 0 ∧ h.HID_HIRAGANA ≠ 0) ∧
    (h.HID_J_BSLASH ≠ h.HID_CAPS ∧ h.HID_J_AT ≠ h.HID_CAPS ∧ h.HID_J_LBRACK ≠ h.HID_CAPS ∧
      h.HID_J_UL ≠ h.HID_CAPS ∧ h.HID_MUHENKAN ≠ h.HID_CAPS ∧ h.HID_HENKAN ≠ h.HID_CAPS ∧
      h.HID_HIRAGANA ≠ h.HID_CAPS) ∧
    (h.HID_J_AT ≠ h.HID_J_BSLASH ∧ h.HID_J_LBRACK ≠ h.HID_J_BSLASH ∧
      h.HID_J_UL ≠ h.HID_J_BSLASH ∧ h.HID_MUHENKAN ≠ h.HID_J_BSLASH ∧
      h.HID_HENKAN ≠ h.HID_J_BSLASH ∧ h.HID_HIRAGANA ≠ h.HID_J_BSLASH) ∧
    (h.HID_J_LBRACK ≠ h.HID_J_AT ∧ h.HID_J_UL ≠ h.HID_J_AT ∧ h.HID_MUHENKAN ≠ h.HID_J_AT ∧
      h.HID_HENKAN ≠ h.HID_J_AT ∧ h.HID_HIRAGANA ≠ h.HID_J_AT) ∧
    (h.HID_J_UL ≠ h.HID_J_LBRACK ∧ h.HID_MUHENKAN ≠ h.HID_J_LBRACK ∧
      h.HID_HENKAN ≠ h.HID_J_LBRACK ∧ h.HID_HIRAGANA ≠ h.HID_J_LBRACK) ∧
    (h.HID_MUHENKAN ≠ h.HID_J_UL ∧ h.HID_HENKAN ≠ h.HID_J_UL ∧ h.HID_HIRAGANA ≠ h.HID_J_UL) ∧
    (h.HID_HENKAN ≠ h.HID_MUHENKAN ∧ h.HID_HIRAGANA ≠ h.HID_MUHENKAN) ∧
    h.HID_HIRAGANA ≠ h.HID_HENKAN := by
  simp only [OverrideKeysDistinct, overrideKeys, List.nodup_cons, List.mem_cons,
    List.mem_singleton, not_or, List.not_mem_nil, not_false_eq_true, List.nodup_nil,
    and_true] at hd
  obtain ⟨⟨a1, a2, a3, a4, a5, a6, a7, a8⟩, ⟨b1, b2, b3, b4, b5, b6, b7⟩,
    ⟨c1, c2, c3, c4, c5, c6⟩, ⟨d1, d2, d3, d4, d5⟩, ⟨e1, e2, e3, e4⟩, ⟨f1, f2, f3⟩,
    ⟨g1, g2⟩, k1⟩ := hd
  exact ⟨⟨Ne.symm a1, Ne.symm a2, Ne.symm a3, Ne.symm a4, Ne.symm a5, Ne.symm a6, Ne.symm a7,
      Ne.symm a8⟩,
    ⟨Ne.symm b1, Ne.symm b2, Ne.symm b3, Ne.symm b4, Ne.symm b5, Ne.symm b6, Ne.symm b7⟩,
    ⟨Ne.symm c1, Ne.symm c2, Ne.symm c3, Ne.symm c4, Ne.symm c5, Ne.symm c6⟩,
    ⟨Ne.symm d1, Ne.symm d2, Ne.symm d3, Ne.symm d4, Ne.symm d5⟩,
    ⟨Ne.symm e1, Ne.symm e2, Ne.symm e3, Ne.symm e4⟩, ⟨Ne.symm f1, Ne.symm f2, Ne.symm f3⟩,
    ⟨Ne.symm g1, Ne.symm g2⟩, Ne.symm k1⟩

/-- The value lines 153-178 return for each of the eight tested codes, alternate layout
on. -/
theorem usLayoutMap_on (h : HidCodes) (hd : OverrideKeysDistinct h) (fn : Bool) :
    usLayoutMap h fn true h.HID_CAPS = (if fn = true then h.HID_CAPS else h.HID_IME_OFF) ∧
    usLayoutMap h fn true h.HID_J_BSLASH = h.HID_BSLASH ∧
    usLayoutMap h fn true h.HID_J_AT = h.HID_LBRACK ∧
    usLayoutMap h fn true h.HID_J_LBRACK = h.HID_RBRACK ∧
    usLayoutMap h fn true h.HID_J_UL = (if fn = true then h.HID_J_UL else h.HID_R_SHIFT) ∧
    usLayoutMap h fn true h.HID_MUHENKAN = h.HID_F14 ∧
    usLayoutMap h fn true h.HID_HENKAN = h.HID_F15 ∧
    usLayoutMap h fn true h.HID_HIRAGANA = h.HID_IME_ON := by
  obtain ⟨_, ⟨b1, b2, b3, b4, b5, b6, b7⟩, ⟨c1, c2, c3, c4, c5, c6⟩, ⟨d1, d2, d3, d4, d5⟩,
    ⟨e1, e2, e3, e4⟩, ⟨f1, f2, f3⟩, ⟨g1, g2⟩, k1⟩ := overrideKeys_ne h hd
  refine ⟨?_, ?_, ?_, ?_, ?_, ?_, ?_, ?_⟩
  · cases fn <;> simp [usLayoutMap, Ne.symm b1, Ne.symm b2, Ne.symm b3, Ne.symm b4,
      Ne.symm b5, Ne.symm b6, Ne.symm b7]
  · simp [usLayoutMap, b1]
  · simp [usLayoutMap, b2, c1]
  · simp [usLayoutMap, b3, c2, d1]
  · cases fn <;> simp [usLayoutMap, b4, c3, d2, e1]
  · simp [usLayoutMap, b5, c4, d3, e2, f1]
  · simp [usLayoutMap, b6, c5, d4, e3, f2, g1]
  · simp [usLayoutMap, b7, c6, d5, e4, f3, g2, k1]

/-- C12. CapsLock override: alternate layout on (the eight tested codes being distinct and
non-zero), for every event byte with scan code in 1..70 whose table entry in the active
table is `HID_CAPS`, `xd64_get_key` returns `HID_IME_OFF` under BASE and `HID_CAPS` itself
under FN1; entry 29 of both tables is `HID_CAPS`. -/
theorem C12_capslock_override (h : HidCodes) (hd : OverrideKeysDistinct h) (b : Nat)
    (p : Bool) (h1 : 1 ≤ scanCodeOf b) (h70 : scanCodeOf b ≤ SW_COUNT) :
    (((scan_to_hid_table h).getD HID_TABLE_BASE []).getD (scanCodeOf b - 1) 0 = h.HID_CAPS →
      xd64_get_key h HID_TABLE_BASE b p true = some (h.HID_IME_OFF, pressedOf b)) ∧
    (((scan_to_hid_table h).getD HID_TABLE_FN1 []).getD (scanCodeOf b - 1) 0 = h.HID_CAPS →
      xd64_get_key h HID_TABLE_FN1 b p true = some (h.HID_CAPS, pressedOf b)) ∧
    ((scan_to_hid_table h).getD HID_TABLE_BASE []).getD (29 - 1) 0 = h.HID_CAPS ∧
    ((scan_to_hid_table h).getD HID_TABLE_FN1 []).getD (29 - 1) 0 = h.HID_CAPS := by
  have hne := (overrideKeys_ne h hd).1.1
  refine ⟨fun he => ?_, fun he => ?_, rfl, rfl⟩
  · rw [get_key_of_entry h HID_TABLE_BASE b p true (by decide) h1 h70, he,
      (usLayoutMap_on h hd _).1]
    simp [hne, HID_TABLE_BASE, HID_TABLE_FN1]
  · rw [get_key_of_entry h HID_TABLE_FN1 b p true (by decide) h1 h70, he,
      (usLayoutMap_on h hd _).1]
    simp [hne, HID_TABLE_FN1]

/-- C12 at the press of switch 29 with the sample usage codes. -/
theorem C12_capslock_override_witness :
    xd64_get_key sampleCodes HID_TABLE_BASE 29 false true
        = some (sampleCodes.HID_IME_OFF, true) ∧
      xd64_get_key sampleCodes HID_TABLE_FN1 29 false true = some (sampleCodes.HID_CAPS, true) :=
  ⟨(C12_capslock_override sampleCodes (by decide) 29 false (by decide) (by decide)).1
      (by decide),
   (C12_capslock_override sampleCodes (by decide) 29 false (by decide) (by decide)).2.1
      (by decide)⟩

/-- C13. Underscore override: alternate layout on (the eight tested codes being distinct
and non-zero), for every event byte with scan code in 1..70 whose table entry in the
active table is `HID_J_UL`, `xd64_get_key` returns `HID_R_SHIFT` under BASE and `HID_J_UL`
itself under FN1; entry 64 of both tables is `HID_J_UL`. -/
theorem C13_underscore_override (h : HidCodes) (hd : OverrideKeysDistinct h) (b : Nat)
    (p : Bool) (h1 : 1 ≤ scanCodeOf b) (h70 : scanCodeOf b ≤ SW_COUNT) :
    (((scan_to_hid_table h).getD HID_TABLE_BASE []).getD (scanCodeOf b - 1) 0 = h.HID_J_UL →
      xd64_get_key h HID_TABLE_BASE b p true = some (h.HID_R_SHIFT, pressedOf b)) ∧
    (((scan_to_hid_table h).getD HID_TABLE_FN1 []).getD (scanCodeOf b - 1) 0 = h.HID_J_UL →
      xd64_get_key h HID_TABLE_FN1 b p true = some (h.HID_J_UL, pressedOf b)) ∧
    ((scan_to_hid_table h).getD HID_TABLE_BASE []).getD (64 - 1) 0 = h.HID_J_UL ∧
    ((scan_to_hid_table h).getD HID_TABLE_FN1 []).getD (64 - 1) 0 = h.HID_J_UL := by
  have hne := (overrideKeys_ne h hd).1.2.2.2.2.1
  refine ⟨fun he => ?_, fun he => ?_, rfl, rfl⟩
  · rw [get_key_of_entry h HID_TABLE_BASE b p true (by decide) h1 h70, he,
      (usLayoutMap_on h hd _).2.2.2.2.1]
    simp [hne, HID_TABLE_BASE, HID_TABLE_FN1]
  · rw [get_key_of_entry h HID_TABLE_FN1 b p true (by decide) h1 h70, he,
      (usLayoutMap_on h hd _).2.2.2.2.1]
    simp [hne, HID_TABLE_FN1]

/-- C13 at the release of switch 64 with the sample usage codes. -/
theorem C13_underscore_override_witness :
    xd64_get_key sampleCodes HID_TABLE_BASE (64 ||| 0x80) true true
        = some (sampleCodes.HID_R_SHIFT, false) ∧
      xd64_get_key sampleCodes HID_TABLE_FN1 (64 ||| 0x80) true true
        = some (sampleCodes.HID_J_UL, false) :=
  ⟨(C13_underscore_override sampleCodes (by decide) (64 ||| 0x80) true (by decide)
      (by decide)).1 (by decide),
   (C13_underscore_override sampleCodes (by decide) (64 ||| 0x80) true (by decide)
      (by decide)).2.1 (by decide)⟩

/-- C14. Unconditional overrides: alternate layout on (the eight tested codes being
distinct and non-zero), for either table and every event byte with scan code in 1..70,
a table entry `HID_J_BSLASH` gives `HID_BSLASH`, `HID_J_AT` gives `HID_LBRACK`,
`HID_J_LBRACK` gives `HID_RBRACK`, `HID_MUHENKAN` gives `HID_F14`, `HID_HENKAN` gives
`HID_F15` and `HID_HIRAGANA` gives `HID_IME_ON`. -/
theorem C14_unconditional_overrides (h : HidCodes) (hd : OverrideKeysDistinct h)
    (t b : Nat) (p : Bool) (ht : t < 2) (h1 : 1 ≤ scanCodeOf b)
    (h70 : scanCodeOf b ≤ SW_COUNT) :
    (((scan_to_hid_table h).getD t []).getD (scanCodeOf b - 1) 0 = h.HID_J_BSLASH →
      xd64_get_key h t b p true = some (h.HID_BSLASH, pressedOf b)) ∧
    (((scan_to_hid_table h).getD t []).getD (scanCodeOf b - 1) 0 = h.HID_J_AT →
      xd64_get_key h t b p true = some (h.HID_LBRACK, pressedOf b)) ∧
    (((scan_to_hid_table h).getD t []).getD (scanCodeOf b - 1) 0 = h.HID_J_LBRACK →
      xd64_get_key h t b p true = some (h.HID_RBRACK, pressedOf b)) ∧
    (((scan_to_hid_table h).getD t []).getD (scanCodeOf b - 1) 0 = h.HID_MUHENKAN →
      xd64_get_key h t b p true = some (h.HID_F14, pressedOf b)) ∧
    (((scan_to_hid_table h).getD t []).getD (scanCodeOf b - 1) 0 = h.HID_HENKAN →
      xd64_get_key h t b p true = some (h.HID_F15, pressedOf b)) ∧
    (((scan_to_hid_table h).getD t []).getD (scanCodeOf b - 1) 0 = h.HID_HIRAGANA →
      xd64_get_key h t b p true = some (h.HID_IME_ON, pressedOf b)) := by
  obtain ⟨_, n2, n3, n4, _, n6, n7, n8⟩ := (overrideKeys_ne h hd).1
  obtain ⟨_, m2, m3, m4, _, m6, m7, m8⟩ := usLayoutMap_on h hd (t == HID_TABLE_FN1)
  have hg := get_key_of_entry h t b p true ht h1 h70
  refine ⟨fun he => ?_, fun he => ?_, fun he => ?_, fun he => ?_, fun he => ?_, fun he => ?_⟩
  · rw [hg, he, m2, if_pos n2]
  · rw [hg, he, m3, if_pos n3]
  · rw [hg, he, m4, if_pos n4]
  · rw [hg, he, m6, if_pos n6]
  · rw [hg, he, m7, if_pos n7]
  · rw [hg, he, m8, if_pos n8]

/-- C14 with the sample usage codes: switches 14, 26, 27, 63, 61 under BASE and switch 62
under FN1. -/
theorem C14_unconditional_overrides_witness :
    xd64_get_key sampleCodes HID_TABLE_BASE 14 false true = some (sampleCodes.HID_BSLASH, true) ∧
    xd64_get_key sampleCodes HID_TABLE_BASE 26 false true = some (sampleCodes.HID_LBRACK, true) ∧
    xd64_get_key sampleCodes HID_TABLE_BASE 27 false true = some (sampleCodes.HID_RBRACK, true) ∧
    xd64_get_key sampleCodes HID_TABLE_BASE 63 false true = some (sampleCodes.HID_F14, true) ∧
    xd64_get_key sampleCodes HID_TABLE_FN1 62 false true = some (sampleCodes.HID_F15, true) ∧
    xd64_get_key sampleCodes HID_TABLE_BASE 61 false true = some (sampleCodes.HID_IME_ON, true) :=
  ⟨(C14_unconditional_overrides sampleCodes (by decide) HID_TABLE_BASE 14 false (by decide)
      (by decide) (by decide)).1 (by decide),
   (C14_unconditional_overrides sampleCodes (by decide) HID_TABLE_BASE 26 false (by decide)
      (by decide) (by decide)).2.1 (by decide),
   (C14_unconditional_overrides sampleCodes (by decide) HID_TABLE_BASE 27 false (by decide)
      (by decide) (by decide)).2.2.1 (by decide),
   (C14_unconditional_overrides sampleCodes (by decide) HID_TABLE_BASE 63 false (by decide)
      (by decide) (by decide)).2.2.2.1 (by decide),
   (C14_unconditional_overrides sampleCodes (by decide) HID_TABLE_FN1 62 false (by decide)
      (by decide) (by decide)).2.2.2.2.1 (by decide),
   (C14_unconditional_overrides sampleCodes (by decide) HID_TABLE_BASE 61 false (by decide)
      (by decide) (by decide)).2.2.2.2.2 (by decide)⟩

/-! ## End-to-end press of one switch (C15) -/

theorem onlySwitch_events : ∀ s, s < 71 → 1 ≤ s →
    IsSnapshot (onlySwitch s) ∧ onlySwitch s ≠ zeroSnapshot ∧
      eventsUpTo (onlySwitch s) zeroSnapshot STATE_COUNT = [s] := by
  decide

theorem onlySwitch_bits : ∀ s, s < 71 → ∀ s2, s2 < 71 → 1 ≤ s → 1 ≤ s2 →
    switchOn (onlySwitch s) s2 = decide (s2 = s) := by
  decide

theorem byte_codec_plain : ∀ s, s < 128 → scanCodeOf s = s ∧ pressedOf s = true := by
  decide

/-- C15. End-to-end press of one switch: for every switch `s` in 1..70, two ticks from
the initial engine whose raw snapshot has only the bit of `s` set push nothing on the
first tick and exactly the byte `s` on the second; the buffer, empty before, then pops
`s`, and `xd64_get_key` on it (alternate layout off) sets `pressed` to true and returns
`scan_to_hid_table[t][s - 1]`, which for `s = 1` is `HID_ESCAPE` under BASE and
`HID_GRAVE_AC` under FN1. -/
theorem C15_end_to_end_press (h : HidCodes) (t s : Nat) (p : Bool) (ht : t < 2)
    (h1 : 1 ≤ s) (h70 : s ≤ SW_COUNT) :
    (∀ s2, 1 ≤ s2 → s2 ≤ SW_COUNT → switchOn (onlySwitch s) s2 = decide (s2 = s)) ∧
    (ticks initEngine [onlySwitch s, onlySwitch s]).2 = [[], [s]] ∧
    xd_get_buffer (xd_put_buffer [] s) = (s, []) ∧
    xd64_get_key h t s p false
      = some (((scan_to_hid_table h).getD t []).getD (s - 1) 0, true) ∧
    ((scan_to_hid_table h).getD HID_TABLE_BASE []).getD (1 - 1) 0 = h.HID_ESCAPE ∧
    ((scan_to_hid_table h).getD HID_TABLE_FN1 []).getD (1 - 1) 0 = h.HID_GRAVE_AC := by
  have hs70 : s ≤ 70 := h70
  obtain ⟨hsnap, _, hev⟩ := onlySwitch_events s (by omega) h1
  obtain ⟨hsc, hpr⟩ := byte_codec_plain s (by omega)
  refine ⟨?_, ?_, rfl, ?_, rfl, rfl⟩
  · intro s2 h12 h702
    have : s2 ≤ 70 := h702
    exact onlySwitch_bits s (by omega) s2 (by omega) h1 h12
  · have h2 : matrix_scan ⟨onlySwitch s, zeroSnapshot⟩ (onlySwitch s)
        = (⟨onlySwitch s, onlySwitch s⟩, eventsUpTo (onlySwitch s) zeroSnapshot STATE_COUNT) :=
      matrix_scan_confirm ⟨onlySwitch s, zeroSnapshot⟩ (onlySwitch s) hsnap isSnapshot_zero rfl
    simp only [ticks, first_tick (onlySwitch s) hsnap, h2, hev]
  · have := get_key_layout_off h t s p ht (by rw [hsc]; exact h1) (by rw [hsc]; exact h70)
    rw [hsc, hpr] at this
    exact this

/-- C15 at switch 1 with the sample usage codes, under BASE and under FN1. -/
theorem C15_end_to_end_press_witness :
    (ticks initEngine [onlySwitch 1, onlySwitch 1]).2 = [[], [1]] ∧
    xd64_get_key sampleCodes HID_TABLE_BASE 1 false false
      = some (sampleCodes.HID_ESCAPE, true) ∧
    xd64_get_key sampleCodes HID_TABLE_FN1 1 false false
      = some (sampleCodes.HID_GRAVE_AC, true) :=
  ⟨(C15_end_to_end_press sampleCodes HID_TABLE_BASE 1 false (by decide) (by decide)
      (by decide)).2.1,
   (C15_end_to_end_press sampleCodes HID_TABLE_BASE 1 false (by decide) (by decide)
      (by decide)).2.2.2.1,
   (C15_end_to_end_press sampleCodes HID_TABLE_FN1 1 false (by decide) (by decide)
      (by decide)).2.2.2.1⟩

/-! ## Row-major numbering (C16) -/

theorem codeAt_rowMajor : ∀ i, i < 10 → ∀ k, k < deltaOf i →
    codeAt i + k = rowMajorCode i k ∧ deltaOf i = (if i % 2 = 0 then 8 else 6) := by
  decide

theorem rowMajor_bijection :
    (∀ i, i < 10 → ∀ k, k < deltaOf i →
      1 ≤ rowMajorCode i k ∧ rowMajorCode i k ≤ 70 ∧
        14 * (i / 2) + 1 ≤ rowMajorCode i k ∧ rowMajorCode i k ≤ 14 * (i / 2) + 14) ∧
    (∀ i, i < 10 → ∀ k, k < deltaOf i → ∀ i2, i2 < 10 → ∀ k2, k2 < deltaOf i2 →
      rowMajorCode i k = rowMajorCode i2 k2 → i = i2 ∧ k = k2) ∧
    (∀ s, s < 71 → 1 ≤ s →
      switchByte s < 10 ∧ switchBitIdx s < deltaOf (switchByte s) ∧
        rowMajorCode (switchByte s) (switchBitIdx s) = s) := by
  refine ⟨by decide, ?_, by decide⟩
  intro i hi k hk i2 hi2 k2 hk2 he
  have ha := codeAt_rowMajor i hi k hk
  have hb := codeAt_rowMajor i2 hi2 k2 hk2
  have pa := position_code i hi k hk
  have pb := position_code i2 hi2 k2 hk2
  rw [← ha.1, ← hb.1] at he
  rw [he] at pa
  exact ⟨pa.2.2.1.symm.trans pb.2.2.1, pa.2.2.2.symm.trans pb.2.2.2⟩

theorem mem_events_rowMajor (tmp last : List Nat) (b : Nat) :
    b ∈ eventsUpTo tmp last STATE_COUNT ↔
      ∃ i, i < 10 ∧ ∃ k, k < deltaOf i ∧
        (tmp.getD i 0).testBit k ≠ (last.getD i 0).testBit k ∧
        b = rowMajorCode i k ||| (if (tmp.getD i 0).testBit k = true then 0 else 0x80) := by
  rw [mem_eventsUpTo]
  constructor
  · rintro ⟨i, hi, k, hk, hx, rfl⟩
    have hi10 : i < 10 := hi
    have h70 := (position_code i hi10 k hk).2.1
    refine ⟨i, hi10, k, hk, ?_, ?_⟩
    · rw [Nat.testBit_xor] at hx
      intro he
      rw [he] at hx
      simp at hx
    · rw [eventByte_eq _ _ _ (by omega), (codeAt_rowMajor i hi10 k hk).1]
  · rintro ⟨i, hi, k, hk, hx, rfl⟩
    have h70 := (position_code i hi k hk).2.1
    refine ⟨i, hi, k, hk, ?_, ?_⟩
    · rw [Nat.testBit_xor]
      revert hx
      cases (tmp.getD i 0).testBit k <;> cases (last.getD i 0).testBit k <;> simp
    · rw [eventByte_eq _ _ _ (by omega), (codeAt_rowMajor i hi k hk).1]

/-- C16. Row-major numbering: in a confirming tick a byte is pushed exactly for the bits
`k` of state bytes `i` (`i < 10`, `k < 8` for even `i`, `k < 6` for odd `i`) that differ
between the raw snapshot and `last_key_state`, and it carries scan code
`14 * (i / 2) + 8 * (i % 2) + k + 1`; these codes map the 70 positions one-to-one onto
1..70, row `i / 2` owning the 14 codes after `14 * (i / 2)`; bits 6 and 7 of odd bytes
never push a byte: when the other bits agree nothing is pushed. -/
theorem C16_row_major_numbering (e : Engine) (raw : List Nat) (hr : IsSnapshot raw)
    (hl : IsSnapshot e.last_key_state) (heq : raw = e.key_state) :
    (∀ b, b ∈ (matrix_scan e raw).2 ↔
      ∃ i, i < 10 ∧ ∃ k, k < deltaOf i ∧
        (raw.getD i 0).testBit k ≠ (e.last_key_state.getD i 0).testBit k ∧
        b = rowMajorCode i k ||| (if (raw.getD i 0).testBit k = true then 0 else 0x80)) ∧
    (∀ i, i < 10 → ∀ k, k < deltaOf i →
      scanCodeOf (rowMajorCode i k ||| 0) = rowMajorCode i k ∧
        scanCodeOf (rowMajorCode i k ||| 0x80) = rowMajorCode i k) ∧
    (∀ i, i < 10 → deltaOf i = (if i % 2 = 0 then 8 else 6)) ∧
    (∀ i, i < 10 → ∀ k, k < deltaOf i →
      1 ≤ rowMajorCode i k ∧ rowMajorCode i k ≤ 70 ∧
        14 * (i / 2) + 1 ≤ rowMajorCode i k ∧ rowMajorCode i k ≤ 14 * (i / 2) + 14) ∧
    (∀ i, i < 10 → ∀ k, k < deltaOf i → ∀ i2, i2 < 10 → ∀ k2, k2 < deltaOf i2 →
      rowMajorCode i k = rowMajorCode i2 k2 → i = i2 ∧ k = k2) ∧
    (∀ s, s < 71 → 1 ≤ s →
      switchByte s < 10 ∧ switchBitIdx s < deltaOf (switchByte s) ∧
        rowMajorCode (switchByte s) (switchBitIdx s) = s) ∧
    ((∀ i, i < 10 → ∀ k, k < deltaOf i →
        (raw.getD i 0).testBit k = (e.last_key_state.getD i 0).testBit k) →
      (matrix_scan e raw).2 = []) := by
  rw [matrix_scan_confirm e raw hr hl heq]
  refine ⟨fun b => mem_events_rowMajor raw e.last_key_state b, ?_, by decide,
    rowMajor_bijection.1, rowMajor_bijection.2.1, rowMajor_bijection.2.2, ?_⟩
  · intro i hi k hk
    have h70 := (rowMajor_bijection.1 i hi k hk).2.1
    have := scanCodeOf_or (rowMajorCode i k) (by omega)
    exact ⟨this.1, this.2.1⟩
  · intro hag
    apply List.eq_nil_iff_forall_not_mem.2
    intro b hb
    obtain ⟨i, hi, k, hk, hx, _⟩ := (mem_events_rowMajor raw e.last_key_state b).1 hb
    exact hx (hag i hi k hk)

/-- C16 at a concrete confirming tick: bits 6 and 7 of state byte 1 differ and push
nothing, bit 5 of state byte 9 pushes scan code 70. -/
theorem C16_row_major_numbering_witness :
    (matrix_scan ⟨[0, 0xc0, 0, 0, 0, 0, 0, 0, 0, 0x20], zeroSnapshot⟩
        [0, 0xc0, 0, 0, 0, 0, 0, 0, 0, 0x20]).2 = [70] ∧
      rowMajorCode 9 5 = 70 ∧
      (70 ∈ (matrix_scan ⟨[0, 0xc0, 0, 0, 0, 0, 0, 0, 0, 0x20], zeroSnapshot⟩
        [0, 0xc0, 0, 0, 0, 0, 0, 0, 0, 0x20]).2 ↔
        ∃ i, i < 10 ∧ ∃ k, k < deltaOf i ∧
          (([0, 0xc0, 0, 0, 0, 0, 0, 0, 0, 0x20] : List Nat).getD i 0).testBit k
            ≠ (zeroSnapshot.getD i 0).testBit k ∧
          70 = rowMajorCode i k |||
            (if (([0, 0xc0, 0, 0, 0, 0, 0, 0, 0, 0x20] : List Nat).getD i 0).testBit k = true
              then 0 else 0x80)) :=
  ⟨by decide, by decide,
   (C16_row_major_numbering ⟨[0, 0xc0, 0, 0, 0, 0, 0, 0, 0, 0x20], zeroSnapshot⟩
      [0, 0xc0, 0, 0, 0, 0, 0, 0, 0, 0x20] (by decide) (by decide) rfl).1 70⟩

/-! ## Steady state (C17) -/

theorem bits_eq_of_switchOn (a b : List Nat)
    (h : ∀ s, 1 ≤ s → s ≤ 70 → switchOn a s = switchOn b s) :
    ∀ i, i < 10 → ∀ k, k < deltaOf i → (a.getD i 0).testBit k = (b.getD i 0).testBit k := by
  intro i hi k hk
  obtain ⟨h1, h70, hbyte, hbit⟩ := position_code i hi k hk
  have := h (codeAt i + k) h1 h70
  simpa only [switchOn, hbyte, hbit] using this

/-- Snapshots with the unused bits clear that agree on every switch bit are equal. -/
theorem snapshot_eq_of_switchOn (a b : List Nat) (ha : IsSnapshot a) (hb : IsSnapshot b)
    (hua : UnusedBitsClear a) (hub : UnusedBitsClear b)
    (h : ∀ s, 1 ≤ s → s ≤ 70 → switchOn a s = switchOn b s) : a = b := by
  have hbits := bits_eq_of_switchOn a b h
  apply List.ext_getElem (by rw [ha.1, hb.1])
  intro i h1 h2
  have hi : i < 10 := by
    have := ha.1
    simp only [STATE_COUNT, ROW_COUNT] at this
    omega
  have hai : a.getD i 0 = a[i] := by
    rw [List.getD_eq_getElem?_getD, List.getElem?_eq_getElem h1]; rfl
  have hbi : b.getD i 0 = b[i] := by
    rw [List.getD_eq_getElem?_getD, List.getElem?_eq_getElem h2]; rfl
  rw [← hai, ← hbi]
  apply Nat.eq_of_testBit_eq
  intro k
  by_cases hk : k < deltaOf i
  · exact hbits i hi k hk
  · have hle : 2 ^ deltaOf i ≤ 2 ^ k := Nat.pow_le_pow_right (by norm_num) (by omega)
    rw [Nat.testBit_lt_two_pow (Nat.lt_of_lt_of_le (hua i hi) hle),
      Nat.testBit_lt_two_pow (Nat.lt_of_lt_of_le (hub i hi) hle)]

theorem matrix_scan_steady (R : List Nat) (hR : IsSnapshot R) :
    matrix_scan ⟨R, R⟩ R = (⟨R, R⟩, []) := by
  rw [matrix_scan_confirm ⟨R, R⟩ R hR hR rfl, events_same_nil R R (fun _ _ _ => rfl)]

theorem ticks_steady (R : List Nat) (hR : IsSnapshot R) :
    ∀ n, ticks ⟨R, R⟩ (List.replicate n R) = (⟨R, R⟩, List.replicate n []) := by
  intro n
  induction n with
  | zero => rfl
  | succ n ih =>
    simp only [List.replicate_succ, ticks, matrix_scan_steady R hR, ih]

/-- Two consecutive ticks reading `R` leave both snapshots equal to `R`. -/
theorem two_ticks_state (e : Engine) (R : List Nat) (hR : IsSnapshot R)
    (hk : IsSnapshot e.key_state) (hl : IsSnapshot e.last_key_state) :
    (matrix_scan (matrix_scan e R).1 R).1 = ⟨R, R⟩ := by
  by_cases heq : R = e.key_state
  · rw [matrix_scan_confirm e R hR hl heq]
    rw [matrix_scan_confirm ⟨e.key_state, R⟩ R hR hR heq]
    simp only [← heq]
  · rw [matrix_scan_differ e R hR hk heq]
    rw [matrix_scan_confirm ⟨R, e.last_key_state⟩ R hR hl rfl]

/-- One tick keeps both snapshots arrays of ten bytes with bits 6 and 7 of the odd bytes
clear, when the raw snapshot is such an array. -/
theorem tick_unused_bits (e : Engine) (raw : List Nat) (hr : IsSnapshot raw)
    (hur : UnusedBitsClear raw) (hk : IsSnapshot e.key_state)
    (hl : IsSnapshot e.last_key_state) (huk : UnusedBitsClear e.key_state)
    (hul : UnusedBitsClear e.last_key_state) :
    IsSnapshot (matrix_scan e raw).1.key_state ∧
      IsSnapshot (matrix_scan e raw).1.last_key_state ∧
      UnusedBitsClear (matrix_scan e raw).1.key_state ∧
      UnusedBitsClear (matrix_scan e raw).1.last_key_state := by
  by_cases heq : raw = e.key_state
  · rw [matrix_scan_confirm e raw hr hl heq]
    exact ⟨hk, hr, huk, hur⟩
  · rw [matrix_scan_differ e raw hr hk heq]
    exact ⟨hr, hl, hur, hul⟩

/-- Every engine state reached by a run of ticks keeps bits 6 and 7 of the odd bytes of
both snapshots clear, when the run starts from such a state and reads such snapshots. -/
theorem run_unused_bits : ∀ (raws : List (List Nat)) (e : Engine),
    (∀ r ∈ raws, IsSnapshot r ∧ UnusedBitsClear r) →
    IsSnapshot e.key_state → IsSnapshot e.last_key_state →
    UnusedBitsClear e.key_state → UnusedBitsClear e.last_key_state →
    IsSnapshot (ticks e raws).1.key_state ∧ IsSnapshot (ticks e raws).1.last_key_state ∧
      UnusedBitsClear (ticks e raws).1.key_state ∧
      UnusedBitsClear (ticks e raws).1.last_key_state := by
  intro raws
  induction raws with
  | nil =>
    intro e _ hk hl huk hul
    exact ⟨hk, hl, huk, hul⟩
  | cons raw rest ih =>
    intro e hraws hk hl huk hul
    obtain ⟨hr, hur⟩ := hraws raw (List.mem_cons_self _ _)
    obtain ⟨hk2, hl2, huk2, hul2⟩ := tick_unused_bits e raw hr hur hk hl huk hul
    exact ih (matrix_scan e raw).1 (fun r hmem => hraws r (List.mem_cons_of_mem _ hmem))
      hk2 hl2 huk2 hul2

theorem unusedBitsClear_zero : UnusedBitsClear zeroSnapshot := by decide

/-- C17. Steady state is silent. A tick whose raw reading `R` equals `key_state` and
agrees with `last_key_state` on every switch bit pushes nothing and keeps every switch
bit of `last_key_state` (first part); it leaves both snapshots unchanged, bits 6 and 7 of
the odd bytes being clear in `R` and in `last_key_state` (second part), as they are in
every snapshot `read_cols` stores and hence in every engine state a run from the initial
engine reaches (fifth part), so that on every reached state the tick changes nothing
(sixth part). From any engine state, once `R` has been read on two consecutive ticks
every further consecutive tick reading `R` pushes nothing (third part), and from the
initial engine any number of all-zero ticks push nothing (fourth part). -/
theorem C17_steady_state (e : Engine) (R : List Nat) (hR : IsSnapshot R)
    (hk : IsSnapshot e.key_state) (hl : IsSnapshot e.last_key_state) :
    (R = e.key_state →
      (∀ s, 1 ≤ s → s ≤ SW_COUNT → switchOn R s = switchOn e.last_key_state s) →
      (matrix_scan e R).2 = [] ∧ (matrix_scan e R).1.key_state = e.key_state ∧
        (matrix_scan e R).1.last_key_state = R ∧
        ∀ s, 1 ≤ s → s ≤ SW_COUNT →
          switchOn (matrix_scan e R).1.last_key_state s = switchOn e.last_key_state s) ∧
    (R = e.key_state →
      (∀ s, 1 ≤ s → s ≤ SW_COUNT → switchOn R s = switchOn e.last_key_state s) →
      UnusedBitsClear R → UnusedBitsClear e.last_key_state → matrix_scan e R = (e, [])) ∧
    (∀ n, (ticks e (R :: R :: List.replicate n R)).2.drop 2 = List.replicate n []) ∧
    (∀ n, (ticks initEngine (List.replicate n zeroSnapshot)).2 = List.replicate n []) ∧
    (∀ raws : List (List Nat), (∀ r ∈ raws, IsSnapshot r ∧ UnusedBitsClear r) →
      IsSnapshot (ticks initEngine raws).1.key_state ∧
        IsSnapshot (ticks initEngine raws).1.last_key_state ∧
        UnusedBitsClear (ticks initEngine raws).1.key_state ∧
        UnusedBitsClear (ticks initEngine raws).1.last_key_state) ∧
    (∀ raws : List (List Nat), (∀ r ∈ raws, IsSnapshot r ∧ UnusedBitsClear r) →
      UnusedBitsClear R → R = (ticks initEngine raws).1.key_state →
      (∀ s, 1 ≤ s → s ≤ SW_COUNT →
        switchOn R s = switchOn (ticks initEngine raws).1.last_key_state s) →
      matrix_scan (ticks initEngine raws).1 R = ((ticks initEngine raws).1, [])) := by
  have steady : ∀ st : Engine, IsSnapshot st.last_key_state → R = st.key_state →
      (∀ s, 1 ≤ s → s ≤ SW_COUNT → switchOn R s = switchOn st.last_key_state s) →
      UnusedBitsClear R → UnusedBitsClear st.last_key_state → matrix_scan st R = (st, []) := by
    intro st hsl heq hag hu1 hu2
    have hlast : R = st.last_key_state :=
      snapshot_eq_of_switchOn R st.last_key_state hR hsl hu1 hu2 hag
    rw [matrix_scan_confirm st R hR hsl heq, events_same_nil R st.last_key_state hag]
    cases st
    simp only at heq hlast
    simp only [← hlast]
  refine ⟨fun heq hag => ?_, fun heq hag hu1 hu2 => steady e hl heq hag hu1 hu2,
    fun n => ?_, fun n => ?_, fun raws hraws => ?_, fun raws hraws huR heq hag => ?_⟩
  · rw [matrix_scan_confirm e R hR hl heq, events_same_nil R e.last_key_state hag]
    exact ⟨rfl, rfl, rfl, hag⟩
  · simp only [ticks, two_ticks_state e R hR hk hl, ticks_steady R hR n, List.drop_succ_cons,
      List.drop_zero]
  · exact congrArg Prod.snd (ticks_steady zeroSnapshot isSnapshot_zero n)
  · exact run_unused_bits raws initEngine hraws isSnapshot_zero isSnapshot_zero
      unusedBitsClear_zero unusedBitsClear_zero
  · obtain ⟨_, hl2, _, hul2⟩ := run_unused_bits raws initEngine hraws isSnapshot_zero
      isSnapshot_zero unusedBitsClear_zero unusedBitsClear_zero
    exact steady (ticks initEngine raws).1 hl2 heq hag huR hul2

/-- C17 at switch 1 held: a tick reading it again with both snapshots already holding it
changes nothing; read on five consecutive ticks from the initial engine, the last three
ticks push nothing; four all-zero ticks from the initial engine push nothing. -/
theorem C17_steady_state_witness :
    matrix_scan ⟨[1, 0, 0, 0, 0, 0, 0, 0, 0, 0], [1, 0, 0, 0, 0, 0, 0, 0, 0, 0]⟩
        [1, 0, 0, 0, 0, 0, 0, 0, 0, 0]
      = (⟨[1, 0, 0, 0, 0, 0, 0, 0, 0, 0], [1, 0, 0, 0, 0, 0, 0, 0, 0, 0]⟩, []) ∧
    (ticks initEngine ([1, 0, 0, 0, 0, 0, 0, 0, 0, 0] :: [1, 0, 0, 0, 0, 0, 0, 0, 0, 0] ::
        List.replicate 3 [1, 0, 0, 0, 0, 0, 0, 0, 0, 0])).2.drop 2 = List.replicate 3 [] ∧
      (ticks initEngine (List.replicate 4 zeroSnapshot)).2 = List.replicate 4 [] :=
  ⟨(C17_steady_state ⟨[1, 0, 0, 0, 0, 0, 0, 0, 0, 0], [1, 0, 0, 0, 0, 0, 0, 0, 0, 0]⟩
      [1, 0, 0, 0, 0, 0, 0, 0, 0, 0] (by decide) (by decide) (by decide)).2.1 rfl
      (fun _ _ _ => rfl) (by decide) (by decide),
   (C17_steady_state initEngine [1, 0, 0, 0, 0, 0, 0, 0, 0, 0] (by decide) (by decide)
      (by decide)).2.2.1 3,
   (C17_steady_state initEngine [1, 0, 0, 0, 0, 0, 0, 0, 0, 0] (by decide) (by decide)
      (by decide)).2.2.2.1 4⟩

/-! ## Press/release alternation (C18) -/

/-- The events for scan code `s` in one tick: one, carrying the new bit, when the bit of
`s` in `last_key_state` changes in the tick, none otherwise. -/
theorem tick_flags (e : Engine) (raw : List Nat) (hr : IsSnapshot raw)
    (hk : IsSnapshot e.key_state) (hl : IsSnapshot e.last_key_state) (s : Nat)
    (h1 : 1 ≤ s) (h70 : s ≤ 70) :
    (((matrix_scan e raw).2.filter fun b => scanCodeOf b == s).map pressedOf)
      = (if switchOn (matrix_scan e raw).1.last_key_state s ≠ switchOn e.last_key_state s
          then [switchOn (matrix_scan e raw).1.last_key_state s] else []) := by
  by_cases heq : raw = e.key_state
  · rw [matrix_scan_confirm e raw hr hl heq]
    have hcount := count_scanCode raw e.last_key_state s h1 h70
    rw [List.count_eq_countP, List.countP_map, List.countP_eq_length_filter] at hcount
    have hfun : ((fun x => x == s) ∘ scanCodeOf) = fun b => scanCodeOf b == s := rfl
    rw [hfun] at hcount
    show List.map pressedOf
        (List.filter (fun b => scanCodeOf b == s) (eventsUpTo raw e.last_key_state STATE_COUNT))
      = if switchOn raw s ≠ switchOn e.last_key_state s then [switchOn raw s] else []
    by_cases hd : switchOn raw s ≠ switchOn e.last_key_state s
    · rw [if_pos hd] at hcount
      rw [if_pos hd]
      obtain ⟨b, hb⟩ := List.length_eq_one.1 hcount
      have hmem : b ∈ List.filter (fun b => scanCodeOf b == s)
          (eventsUpTo raw e.last_key_state STATE_COUNT) := by rw [hb]; simp
      obtain ⟨hin, hsc⟩ := List.mem_filter.1 hmem
      have hsc2 : scanCodeOf b = s := by simpa using hsc
      have hpr := (events_sound raw e.last_key_state b hin).2.2.2.1
      rw [hb, List.map_cons, List.map_nil, hpr, hsc2]
    · rw [if_neg hd] at hcount
      rw [if_neg hd, List.length_eq_zero.1 hcount]
      rfl
  · rw [matrix_scan_differ e raw hr hk heq]
    simp

theorem tick_snapshots (e : Engine) (raw : List Nat) (hr : IsSnapshot raw)
    (hk : IsSnapshot e.key_state) (hl : IsSnapshot e.last_key_state) :
    IsSnapshot (matrix_scan e raw).1.key_state ∧
      IsSnapshot (matrix_scan e raw).1.last_key_state := by
  by_cases heq : raw = e.key_state
  · rw [matrix_scan_confirm e raw hr hl heq]
    exact ⟨hk, hr⟩
  · rw [matrix_scan_differ e raw hr hk heq]
    exact ⟨hr, hl⟩

theorem flagsFor_cons (s : Nat) (x : List Nat) (xs : List (List Nat)) :
    flagsFor s (x :: xs)
      = ((x.filter fun b => scanCodeOf b == s).map pressedOf) ++ flagsFor s xs := by
  simp only [flagsFor, List.flatten_cons, List.filter_append, List.map_append]

/-- Over a run of ticks from any engine state, the events for scan code `s` alternate,
starting with the opposite of the bit of `s` in `last_key_state`, and that bit ends up as
the flag of the last event (unchanged when there is none). -/
theorem run_alternates (s : Nat) (h1 : 1 ≤ s) (h70 : s ≤ 70) :
    ∀ (raws : List (List Nat)) (e : Engine), (∀ r ∈ raws, IsSnapshot r) →
      IsSnapshot e.key_state → IsSnapshot e.last_key_state →
      alternatesFrom (!switchOn e.last_key_state s) (flagsFor s (ticks e raws).2) = true ∧
      switchOn (ticks e raws).1.last_key_state s
        = (flagsFor s (ticks e raws).2).getLast?.getD (switchOn e.last_key_state s) := by
  intro raws
  induction raws with
  | nil =>
    intro e _ _ _
    exact ⟨rfl, rfl⟩
  | cons raw rest ih =>
    intro e hraws hk hl
    have hr : IsSnapshot raw := hraws raw (List.mem_cons_self _ _)
    have hrest : ∀ r ∈ rest, IsSnapshot r := fun r hmem => hraws r (List.mem_cons_of_mem _ hmem)
    obtain ⟨hk2, hl2⟩ := tick_snapshots e raw hr hk hl
    obtain ⟨ihA, ihL⟩ := ih (matrix_scan e raw).1 hrest hk2 hl2
    have hflags := tick_flags e raw hr hk hl s h1 h70
    simp only [ticks, flagsFor_cons, hflags]
    rw [ihL]
    generalize flagsFor s (ticks (matrix_scan e raw).1 rest).2 = F at ihA ⊢
    generalize switchOn (matrix_scan e raw).1.last_key_state s = a2 at ihA ⊢
    generalize switchOn e.last_key_state s = a at ihA ⊢
    cases a <;> cases a2 <;> cases F <;>
      simp_all [alternatesFrom, List.getLast?_cons]

theorem ticks_take : ∀ (raws : List (List Nat)) (e : Engine) (n : Nat),
    (ticks e (raws.take n)).2 = (ticks e raws).2.take n := by
  intro raws
  induction raws with
  | nil => intro e n; simp [ticks]
  | cons raw rest ih =>
    intro e n
    cases n with
    | zero => simp [ticks]
    | succ n => simp only [List.take_succ_cons, ticks, ih]

theorem alternatesFrom_getD : ∀ (l : List Bool) (first : Bool),
    alternatesFrom first l = true →
      ∀ i, i < l.length → l.getD i false = (if i % 2 = 0 then first else !first) := by
  intro l
  induction l with
  | nil => intro _ _ i hi; simp at hi
  | cons x xs ih =>
    intro first h i hi
    simp only [alternatesFrom, Bool.and_eq_true, beq_iff_eq] at h
    cases i with
    | zero => simp [h.1]
    | succ i =>
      have hi2 : i < xs.length := by simpa using hi
      have := ih (!first) h.2 i hi2
      rw [List.getD_cons_succ, this]
      have hmod : (i + 1) % 2 = 0 ↔ ¬ i % 2 = 0 := by omega
      by_cases h0 : i % 2 = 0
      · simp [h0, hmod]
      · simp [h0, hmod]

/-- C18. Press/release alternation: for every finite sequence of raw snapshots fed tick by
tick from the initial engine and every scan code `s` in 1..70, the events pushed for `s`
over the run alternate between press and release, the first being a press (the event
number `i`, counted from 0, is a press exactly when `i` is even); and after every tick
the bit of `s` in `last_key_state` is the flag of the most recent event for `s`, clear
when there has been none. -/
theorem C18_press_release_alternation (raws : List (List Nat))
    (hraws : ∀ r ∈ raws, IsSnapshot r) (s : Nat) (h1 : 1 ≤ s) (h70 : s ≤ SW_COUNT) :
    alternatesFrom true (flagsFor s (ticks initEngine raws).2) = true ∧
    (∀ i, i < (flagsFor s (ticks initEngine raws).2).length →
      (flagsFor s (ticks initEngine raws).2).getD i false = decide (i % 2 = 0)) ∧
    (∀ n, (ticks initEngine (raws.take n)).2 = (ticks initEngine raws).2.take n ∧
      switchOn (ticks initEngine (raws.take n)).1.last_key_state s
        = (flagsFor s ((ticks initEngine raws).2.take n)).getLast?.getD false) := by
  have hz : switchOn initEngine.last_key_state s = false := switchOn_zero s
  have hrun := run_alternates s h1 h70 raws initEngine hraws isSnapshot_zero isSnapshot_zero
  rw [hz] at hrun
  refine ⟨hrun.1, ?_, ?_⟩
  · intro i hi
    rw [alternatesFrom_getD _ true hrun.1 i hi]
    by_cases h0 : i % 2 = 0
    · simp [h0]
    · simp [h0]
  · intro n
    have hsub : ∀ r ∈ raws.take n, IsSnapshot r := fun r hr => hraws r (List.mem_of_mem_take hr)
    have hpre := run_alternates s h1 h70 (raws.take n) initEngine hsub isSnapshot_zero
      isSnapshot_zero
    rw [hz, ticks_take raws initEngine n] at hpre
    exact ⟨ticks_take raws initEngine n, hpre.2⟩

/-- C18 at a concrete run: switch 1 pressed (two readings), bounced once, released (two
readings), pressed again (two readings): press, release, press. -/
theorem C18_press_release_alternation_witness :
    flagsFor 1 (ticks initEngine
        [[1, 0, 0, 0, 0, 0, 0, 0, 0, 0], [1, 0, 0, 0, 0, 0, 0, 0, 0, 0], zeroSnapshot,
          [1, 0, 0, 0, 0, 0, 0, 0, 0, 0], zeroSnapshot, zeroSnapshot,
          [1, 0, 0, 0, 0, 0, 0, 0, 0, 0], [1, 0, 0, 0, 0, 0, 0, 0, 0, 0]]).2
        = [true, false, true] ∧
      alternatesFrom true (flagsFor 1 (ticks initEngine
        [[1, 0, 0, 0, 0, 0, 0, 0, 0, 0], [1, 0, 0, 0, 0, 0, 0, 0, 0, 0], zeroSnapshot,
          [1, 0, 0, 0, 0, 0, 0, 0, 0, 0], zeroSnapshot, zeroSnapshot,
          [1, 0, 0, 0, 0, 0, 0, 0, 0, 0], [1, 0, 0, 0, 0, 0, 0, 0, 0, 0]]).2) = true :=
  ⟨by decide,
   (C18_press_release_alternation
      [[1, 0, 0, 0, 0, 0, 0, 0, 0, 0], [1, 0, 0, 0, 0, 0, 0, 0, 0, 0], zeroSnapshot,
        [1, 0, 0, 0, 0, 0, 0, 0, 0, 0], zeroSnapshot, zeroSnapshot,
        [1, 0, 0, 0, 0, 0, 0, 0, 0, 0], [1, 0, 0, 0, 0, 0, 0, 0, 0, 0]]
      (by decide) 1 (by decide) (by decide)).1⟩

/-! ## Layer-select key (C19) and alternate-layout passthrough (C20) -/

theorem erased_rows_subset (h : HidCodes) :
    (∀ x ∈ ((scan_to_hid_table h).getD 0 []).eraseIdx 67, x ∈ otherTableCodes h) ∧
    (∀ x ∈ ((scan_to_hid_table h).getD 1 []).eraseIdx 67, x ∈ otherTableCodes h) := by
  constructor
  · simp only [scan_to_hid_table, List.eraseIdx_cons_succ, List.eraseIdx_cons_zero,
      List.forall_mem_cons, List.getD_eq_getElem?_getD, List.getElem?_cons_zero,
      List.getElem?_cons_succ, Option.getD_some]
    simp only [otherTableCodes, List.mem_cons, true_or, or_true, true_and, and_true,
      List.not_mem_nil, false_imp_iff, implies_true]
  · simp only [scan_to_hid_table, List.eraseIdx_cons_succ, List.eraseIdx_cons_zero,
      List.forall_mem_cons, List.getD_eq_getElem?_getD, List.getElem?_cons_zero,
      List.getElem?_cons_succ, Option.getD_some]
    simp only [otherTableCodes, List.mem_cons, true_or, or_true, true_and, and_true,
      List.not_mem_nil, false_imp_iff, implies_true]

theorem entry_mem_otherTableCodes (h : HidCodes) (t c : Nat) (ht : t < 2) (h1 : 1 ≤ c)
    (h70 : c ≤ 70) (hc : c ≠ 68) :
    ((scan_to_hid_table h).getD t []).getD (c - 1) 0 ∈ otherTableCodes h := by
  obtain ⟨row, hrow, hlen⟩ := table_rows h t ht
  have hlen70 : row.length = 70 := hlen
  have hrowD : (scan_to_hid_table h).getD t [] = row := by
    rw [List.getD_eq_getElem?_getD, hrow]; rfl
  have hlt : c - 1 < row.length := by omega
  have hmem : row.getD (c - 1) 0 ∈ row.eraseIdx 67 := by
    rw [List.mem_eraseIdx_iff_getElem]
    refine ⟨c - 1, hlt, by omega, ?_⟩
    rw [List.getD_eq_getElem?_getD, List.getElem?_eq_getElem hlt]; rfl
  rw [hrowD]
  have ht2 : t = 0 ∨ t = 1 := by omega
  rcases ht2 with rfl | rfl
  · exact (erased_rows_subset h).1 _ (by rw [hrowD]; exact hmem)
  · exact (erased_rows_subset h).2 _ (by rw [hrowD]; exact hmem)

theorem overrideKeys_subset (h : HidCodes) : ∀ x ∈ overrideKeys h, x ∈ otherTableCodes h := by
  intro x hx
  simp only [overrideKeys, List.mem_cons, List.mem_singleton, List.not_mem_nil, or_false] at hx
  rcases hx with rfl | rfl | rfl | rfl | rfl | rfl | rfl | rfl <;> simp [otherTableCodes]

theorem usLayoutMap_other (h : HidCodes) (fn us : Bool) (hid : Nat)
    (hn : hid ∉ overrideKeys h) : usLayoutMap h fn us hid = hid := by
  simp only [overrideKeys, List.mem_cons, List.mem_singleton, List.not_mem_nil, or_false,
    not_or] at hn
  obtain ⟨a1, a2, a3, a4, a5, a6, a7, a8⟩ := hn
  cases us <;> simp [usLayoutMap, a1, a2, a3, a4, a5, a6, a7, a8]

/-- A table entry that is none of the eight tested codes is returned as it is, whatever
the layout flag (0 for the unmapped entry). -/
theorem get_key_passthrough (h : HidCodes) (t b : Nat) (p us : Bool) (ht : t < 2)
    (h1 : 1 ≤ scanCodeOf b) (h70 : scanCodeOf b ≤ SW_COUNT)
    (hn : ((scan_to_hid_table h).getD t []).getD (scanCodeOf b - 1) 0 ∉ overrideKeys h) :
    xd64_get_key h t b p us
      = some (((scan_to_hid_table h).getD t []).getD (scanCodeOf b - 1) 0, pressedOf b) := by
  rw [get_key_of_entry h t b p us ht h1 h70, usLayoutMap_other h _ us _ hn]
  by_cases hz : ((scan_to_hid_table h).getD t []).getD (scanCodeOf b - 1) 0 = 0
  · rw [if_neg (not_not.2 hz), hz]
  · rw [if_pos hz]

/-- C19. Layer-select key: entry 68 of both tables is `HID_X_FN1`; when the header gives
`HID_X_FN1` a value different from every other usage code named in the tables, 68 is the
only scan code in 1..70 whose entry is `HID_X_FN1`, and `xd64_get_key` on an event byte
with scan code 68 returns `HID_X_FN1` for either table, either layout flag and either
release bit; `xd64_table_change` on the released `HID_X_FN1` with FN1 active gives BASE. -/
theorem C19_layer_select_key (h : HidCodes) (hu : h.HID_X_FN1 ∉ otherTableCodes h)
    (t b : Nat) (p us : Bool) (ht : t < 2) :
    ((scan_to_hid_table h).getD HID_TABLE_BASE []).getD (68 - 1) 0 = h.HID_X_FN1 ∧
    ((scan_to_hid_table h).getD HID_TABLE_FN1 []).getD (68 - 1) 0 = h.HID_X_FN1 ∧
    (∀ c, 1 ≤ c → c ≤ SW_COUNT →
      (((scan_to_hid_table h).getD t []).getD (c - 1) 0 = h.HID_X_FN1 ↔ c = 68)) ∧
    (scanCodeOf b = 68 → xd64_get_key h t b p us = some (h.HID_X_FN1, pressedOf b)) ∧
    xd64_table_change h HID_TABLE_FN1 h.HID_X_FN1 false = HID_TABLE_BASE := by
  have h68 : ((scan_to_hid_table h).getD t []).getD (68 - 1) 0 = h.HID_X_FN1 := by
    have ht2 : t = 0 ∨ t = 1 := by omega
    rcases ht2 with rfl | rfl <;> rfl
  refine ⟨rfl, rfl, ?_, ?_, ?_⟩
  · intro c h1 h70
    constructor
    · intro he
      by_contra hc
      exact hu (he ▸ entry_mem_otherTableCodes h t c ht h1 h70 hc)
    · rintro rfl
      exact h68
  · intro hb
    have hn : ((scan_to_hid_table h).getD t []).getD (scanCodeOf b - 1) 0 ∉ overrideKeys h := by
      rw [hb, h68]
      exact fun hm => hu (overrideKeys_subset h _ hm)
    rw [get_key_passthrough h t b p us ht (by rw [hb]; decide) (by rw [hb]; decide) hn, hb,
      h68]
  · simp [xd64_table_change]

/-- C19 with the sample usage codes: the release of switch 68 under FN1, alternate layout
on, is reported as `HID_X_FN1`, and the layer change on it gives BASE. -/
theorem C19_layer_select_key_witness :
    xd64_get_key sampleCodes HID_TABLE_FN1 (68 ||| 0x80) true true
        = some (sampleCodes.HID_X_FN1, false) ∧
      xd64_table_change sampleCodes HID_TABLE_FN1 sampleCodes.HID_X_FN1 false = HID_TABLE_BASE :=
  ⟨(C19_layer_select_key sampleCodes (by decide) HID_TABLE_FN1 (68 ||| 0x80) true true
      (by decide)).2.2.2.1 (by decide),
   (C19_layer_select_key sampleCodes (by decide) HID_TABLE_FN1 (68 ||| 0x80) true true
      (by decide)).2.2.2.2⟩

/-- C20. Alternate-layout passthrough: for either table and every event byte with scan
code in 1..70, when the table entry is non-zero and none of the eight tested codes,
`xd64_get_key` with the alternate layout on returns the entry itself, as with the layout
off; an unmapped entry (0) gives 0 under both flags; and when `HID_J_RBR_32` is non-zero
and none of the eight codes, switch 41 (entry `HID_J_RBR_32` in both tables) is returned
unchanged. -/
theorem C20_layout_passthrough (h : HidCodes) (t b : Nat) (p : Bool) (ht : t < 2)
    (h1 : 1 ≤ scanCodeOf b) (h70 : scanCodeOf b ≤ SW_COUNT) :
    (((scan_to_hid_table h).getD t []).getD (scanCodeOf b - 1) 0 ≠ 0 →
      ((scan_to_hid_table h).getD t []).getD (scanCodeOf b - 1) 0 ∉ overrideKeys h →
      xd64_get_key h t b p true
          = some (((scan_to_hid_table h).getD t []).getD (scanCodeOf b - 1) 0, pressedOf b) ∧
        xd64_get_key h t b p true = xd64_get_key h t b p false) ∧
    (((scan_to_hid_table h).getD t []).getD (scanCodeOf b - 1) 0 = 0 →
      xd64_get_key h t b p true = some (0, pressedOf b) ∧
        xd64_get_key h t b p false = some (0, pressedOf b)) ∧
    ((scan_to_hid_table h).getD t []).getD (41 - 1) 0 = h.HID_J_RBR_32 ∧
    (h.HID_J_RBR_32 ≠ 0 → h.HID_J_RBR_32 ∉ overrideKeys h → scanCodeOf b = 41 →
      xd64_get_key h t b p true = some (h.HID_J_RBR_32, pressedOf b)) := by
  have h41 : ((scan_to_hid_table h).getD t []).getD (41 - 1) 0 = h.HID_J_RBR_32 := by
    have ht2 : t = 0 ∨ t = 1 := by omega
    rcases ht2 with rfl | rfl <;> rfl
  refine ⟨fun _ hn => ?_, fun hz => ?_, h41, fun _ hn hb => ?_⟩
  · rw [get_key_passthrough h t b p true ht h1 h70 hn, get_key_layout_off h t b p ht h1 h70]
    exact ⟨rfl, rfl⟩
  · rw [get_key_of_entry h t b p true ht h1 h70, get_key_layout_off h t b p ht h1 h70, hz]
    simp
  · have hn2 : ((scan_to_hid_table h).getD t []).getD (scanCodeOf b - 1) 0 ∉ overrideKeys h := by
      rw [hb, h41]; exact hn
    rw [get_key_passthrough h t b p true ht h1 h70 hn2, hb, h41]

/-- C20 with the sample usage codes: switch 41 (`HID_J_RBR_32`) and the unmapped switch 28
under BASE, alternate layout on. -/
theorem C20_layout_passthrough_witness :
    xd64_get_key sampleCodes HID_TABLE_BASE 41 false true
        = some (sampleCodes.HID_J_RBR_32, true) ∧
      xd64_get_key sampleCodes HID_TABLE_BASE 28 false true = some (0, true) :=
  ⟨(C20_layout_passthrough sampleCodes HID_TABLE_BASE 41 false (by decide) (by decide)
      (by decide)).2.2.2 (by decide) (by decide) (by decide),
   ((C20_layout_passthrough sampleCodes HID_TABLE_BASE 28 false (by decide) (by decide)
      (by decide)).2.1 (by decide)).1⟩

end XD64
